import Mathlib

/-!
Verification of the sling HTTP request-builder library (package sling).

The Go code is shallowly embedded as follows:

* Go maps of type http.Header / url.Values are mutable objects; we model
  them as entries of an explicit heap (a list of association lists) and
  fields of type Option Ref (a nil map is `none`).  Mutation through a
  pointer becomes `heapSet`, `make(...)` becomes `heapAlloc`.  Map values
  (string slices) are stored by value: the repository never mutates a
  slice element in place, so sharing of slice backing arrays is not
  observable and need not be modelled.
* Stateful Go functions become explicit state passing: a function that
  mutates its receiver returns the updated receiver and heap.
* Errors become the inductive GoErr; merry.Prepend keeps the cause
  inspectable, which GoErr.prepend models directly.
* net/url, net/textproto and encoding/json are external collaborators;
  they are modelled from the Go standard library sources (Go 1.10 era,
  matching this repository's vintage), restricted to the URL shapes the
  repository exercises (no user-info, no percent-decoding: Path holds
  the raw text, faithful for URLs without percent-escapes).
-/

set_option autoImplicit false

namespace Sling

/-! ## Heap of map objects (model of Go's http.Header / url.Values maps) -/

abbrev Ref := Nat

/-- A Go map from string to string slice, as an association list.
List order models nothing observable (Go map iteration order is random);
all observations go through key lookup. -/
abbrev MapObj := List (String × List String)

abbrev Heap := List MapObj

def heapGet (h : Heap) (r : Ref) : MapObj := h.getD r []

def heapSet (h : Heap) (r : Ref) (m : MapObj) : Heap := h.set r m

def heapAlloc (h : Heap) (m : MapObj) : Heap × Ref := (h ++ [m], h.length)

/-! ## Association-list primitives (model of Go map indexing/assignment) -/

/-- Go `m[k]` (missing key yields the zero value, an empty slice). -/
def lookupVals : MapObj → String → List String
  | [], _ => []
  | p :: ps, k => if p.1 = k then p.2 else lookupVals ps k

/-- Go `_, ok := m[k]`. -/
def hasKey : MapObj → String → Bool
  | [], _ => false
  | p :: ps, k => p.1 = k || hasKey ps k

/-- Go `m[k] = vs` (replace or insert). -/
def mapSetEntry : MapObj → String → List String → MapObj
  | [], k, vs => [(k, vs)]
  | p :: ps, k, vs => if p.1 = k then (k, vs) :: ps else p :: mapSetEntry ps k vs

/-- Go `delete(m, k)`. -/
def mapDelEntry (m : MapObj) (k : String) : MapObj :=
  m.filter (fun p => p.1 ≠ k)

/-- textproto MIMEHeader.Add / url.Values.Add on the raw key:
`m[k] = append(m[k], v)`. -/
def mapAdd (m : MapObj) (k v : String) : MapObj :=
  mapSetEntry m k (lookupVals m k ++ [v])

/-! ## Errors (model of Go error values built with github.com/ansel1/merry) -/

inductive GoErr
  | msg (s : String)
  | prepend (s : String) (cause : GoErr)
deriving DecidableEq, Repr

deriving instance DecidableEq for Except

/-- merry keeps the wrapped error inspectable; Prepend only prefixes the
message.  The underlying cause of a prepended error. -/
def GoErr.cause : GoErr → Option GoErr
  | .msg _ => none
  | .prepend _ e => some e

/-! ## Byte/string utilities (models of net/textproto, net/url escaping,
encoding/base64 from the Go standard library) -/

/-- UTF-8 encoding of one character, as the list of its byte values. -/
def utf8Bytes (c : Char) : List Nat :=
  let n := c.toNat
  if n < 128 then [n]
  else if n < 2048 then [192 + n / 64, 128 + n % 64]
  else if n < 65536 then [224 + n / 4096, 128 + (n / 64) % 64, 128 + n % 64]
  else [240 + n / 262144, 128 + (n / 4096) % 64, 128 + (n / 64) % 64, 128 + n % 64]

def strBytes (s : String) : List Nat := (s.toList.map utf8Bytes).flatten

/-- net/textproto validHeaderFieldByte: HTTP token characters. -/
def validHeaderFieldChar (c : Char) : Bool :=
  c.isAlphanum || c.toNat ∈ [33, 35, 36, 37, 38, 39, 42, 43, 45, 46, 94, 95, 96, 124, 126]

/-- Case-folding pass of textproto canonicalMIMEHeaderKey: uppercase at
the start and after each hyphen, lowercase elsewhere. -/
def canonicalChars : Bool → List Char → List Char
  | _, [] => []
  | upper, c :: cs =>
    (if upper then c.toUpper else c.toLower) :: canonicalChars (c = '-') cs

/-- net/textproto CanonicalMIMEHeaderKey: returns the argument unchanged
when it contains a non-token byte. -/
def CanonicalMIMEHeaderKey (s : String) : String :=
  if s.toList.all validHeaderFieldChar then ⟨canonicalChars true s.toList⟩ else s

/-- net/http Header.Add (canonicalises the key, appends the value). -/
def headerAdd (m : MapObj) (k v : String) : MapObj :=
  mapAdd m (CanonicalMIMEHeaderKey k) v

/-- net/http Header.Set (canonicalises the key, replaces all values). -/
def headerSet (m : MapObj) (k v : String) : MapObj :=
  mapSetEntry m (CanonicalMIMEHeaderKey k) [v]

/-- net/http Header.Del. -/
def headerDel (m : MapObj) (k : String) : MapObj :=
  mapDelEntry m (CanonicalMIMEHeaderKey k)

/-- net/http Header.Get: first value for the canonical key, or "". -/
def headerGet (m : MapObj) (k : String) : String :=
  match lookupVals m (CanonicalMIMEHeaderKey k) with
  | [] => ""
  | v :: _ => v

/-- net/url shouldEscape for a query component: everything except
alphanumerics and - _ . ~ is escaped. -/
def shouldEscapeQuery (b : Nat) : Bool :=
  ¬ ((65 ≤ b ∧ b ≤ 90) ∨ (97 ≤ b ∧ b ≤ 122) ∨ (48 ≤ b ∧ b ≤ 57) ∨ b ∈ [45, 95, 46, 126])

def hexDigitUpper (n : Nat) : Char :=
  if n < 10 then Char.ofNat (48 + n) else Char.ofNat (55 + n)

/-- net/url QueryEscape over the UTF-8 bytes of the string
(space becomes '+', escaped bytes become %XX with uppercase hex). -/
def queryEscape (s : String) : String :=
  ⟨(strBytes s).foldr
    (fun b acc =>
      if b = 32 then '+' :: acc
      else if shouldEscapeQuery b then
        '%' :: hexDigitUpper (b / 16) :: hexDigitUpper (b % 16) :: acc
      else Char.ofNat b :: acc) []⟩

def insertStr (x : String) : List String → List String
  | [] => [x]
  | y :: ys => if x < y ∨ x = y then x :: y :: ys else y :: insertStr x ys

/-- sort.Strings (ascending). -/
def sortStrings (l : List String) : List String := l.foldr insertStr []

/-- net/url Values.Encode: keys sorted, each value escaped, pairs joined
with '&'. -/
def valuesEncode (m : MapObj) : String :=
  let keys := sortStrings (m.map (·.1))
  String.intercalate "&"
    ((keys.map (fun k =>
      (lookupVals m k).map (fun v => queryEscape k ++ "=" ++ queryEscape v))).flatten)

/-- encoding/base64 StdEncoding alphabet. -/
def b64Char (n : Nat) : Char :=
  if n < 26 then Char.ofNat (65 + n)
  else if n < 52 then Char.ofNat (97 + (n - 26))
  else if n < 62 then Char.ofNat (48 + (n - 52))
  else if n = 62 then '+' else '/'

/-- encoding/base64 StdEncoding.EncodeToString over bytes. -/
def b64Encode : List Nat → List Char
  | [] => []
  | [a] => [b64Char (a / 4), b64Char (a % 4 * 16), '=', '=']
  | [a, b] => [b64Char (a / 4), b64Char (a % 4 * 16 + b / 16), b64Char (b % 16 * 4), '=']
  | a :: b :: c :: rest =>
    b64Char (a / 4) :: b64Char (a % 4 * 16 + b / 16) ::
    b64Char (b % 16 * 4 + c / 64) :: b64Char (c % 64) :: b64Encode rest

/-- basicAuth from options.go: base64 of "username:password". -/
def basicAuthStr (username password : String) : String :=
  ⟨b64Encode (strBytes (username ++ ":" ++ password))⟩

/-! ## URLs (model of net/url, Go 1.10 era, restricted as described above).
The field opq models url.URL.Opaque; Path stores the raw (escaped) text,
so EscapedPath is the identity on this subset. -/

structure URLV where
  scheme : String
  opq : String
  host : String
  path : String
  forceQuery : Bool
  rawQuery : String
  fragment : String
deriving DecidableEq, Repr

def URLV.empty : URLV :=
  { scheme := "", opq := "", host := "", path := "",
    forceQuery := false, rawQuery := "", fragment := "" }

/-- Whether a string begins with '/'. -/
def strHasLeadingSlash (s : String) : Bool :=
  match s.toList with
  | '/' :: _ => true
  | _ => false

/-- url.URL.String (Go 1.10), without user-info and host escaping. -/
def urlString (u : URLV) : String :=
  (if u.scheme ≠ "" then u.scheme ++ ":" else "") ++
  (if u.opq ≠ "" then u.opq
   else
     (if (u.scheme ≠ "" ∨ u.host ≠ "") ∧ (u.host ≠ "" ∨ u.path ≠ "") then "//" else "") ++
     u.host ++
     (if u.path ≠ "" ∧ strHasLeadingSlash u.path = false ∧ u.host ≠ "" then "/" else "") ++
     u.path) ++
  (if u.forceQuery ∨ u.rawQuery ≠ "" then "?" ++ u.rawQuery else "") ++
  (if u.fragment ≠ "" then "#" ++ u.fragment else "")

/-- strings.Cut at the first occurrence of a character. -/
def cutList (c : Char) : List Char → List Char × Option (List Char)
  | [] => ([], none)
  | x :: xs =>
    if x = c then ([], some xs)
    else
      let r := cutList c xs
      (x :: r.1, r.2)

/-- net/url getScheme: returns some (scheme, rest) when the string starts
with "scheme:", none when there is no scheme, and an error for a leading
colon.  The Bool tracks whether we are at the first character. -/
def getSchemeCore : Bool → List Char → Except GoErr (Option (List Char × List Char))
  | _, [] => .ok none
  | first, c :: cs =>
    if c.isAlpha then
      (getSchemeCore false cs).map (Option.map fun p => (c :: p.1, p.2))
    else if c.isDigit ∨ c = '+' ∨ c = '-' ∨ c = '.' then
      if first then .ok none
      else (getSchemeCore false cs).map (Option.map fun p => (c :: p.1, p.2))
    else if c = ':' then
      if first then .error (.msg "missing protocol scheme")
      else .ok (some ([], cs))
    else .ok none

def listToLower (l : List Char) : List Char := l.map Char.toLower

def listStartsWith (l pre : List Char) : Bool := pre.isPrefixOf l

def hasColonBeforeSlash (l : List Char) : Bool :=
  match l.findIdx? (· = ':'), l.findIdx? (· = '/') with
  | none, _ => false
  | some _, none => true
  | some i, some j => i < j

/-- net/url parse (viaRequest = false), on the text with the fragment
already removed. -/
def urlParseCore (raw : List Char) : Except GoErr URLV := do
  if raw = ['*'] then
    return { URLV.empty with path := "*" }
  let schemeRes ← getSchemeCore true raw
  let (scheme, rest) :=
    match schemeRes with
    | none => (([] : List Char), raw)
    | some p => (listToLower p.1, p.2)
  -- ForceQuery / RawQuery split
  let (rest, forceQuery, rawQuery) :=
    if rest ≠ [] ∧ rest.getLast? = some '?' ∧ (rest.dropLast.all (· ≠ '?')) then
      (rest.dropLast, true, ([] : List Char))
    else
      match cutList '?' rest with
      | (a, none) => (a, false, ([] : List Char))
      | (a, some q) => (a, false, q)
  if ¬ listStartsWith rest ['/'] then
    if scheme ≠ [] then
      return { URLV.empty with
               scheme := ⟨scheme⟩, opq := ⟨rest⟩,
               forceQuery := forceQuery, rawQuery := ⟨rawQuery⟩ }
    if hasColonBeforeSlash rest then
      throw (.msg "first path segment in URL cannot contain colon")
  if (scheme ≠ [] ∨ ¬ listStartsWith rest ['/', '/', '/']) ∧ listStartsWith rest ['/', '/'] then
    let (authority, path) :=
      match cutList '/' (rest.drop 2) with
      | (a, none) => (a, ([] : List Char))
      | (a, some p) => (a, '/' :: p)
    return { URLV.empty with
             scheme := ⟨scheme⟩, host := ⟨authority⟩, path := ⟨path⟩,
             forceQuery := forceQuery, rawQuery := ⟨rawQuery⟩ }
  return { URLV.empty with
           scheme := ⟨scheme⟩, path := ⟨rest⟩,
           forceQuery := forceQuery, rawQuery := ⟨rawQuery⟩ }

/-- net/url Parse: split off the fragment, then parse. -/
def urlParse (s : String) : Except GoErr URLV := do
  let (rest, frag) := cutList '#' s.toList
  let u ← urlParseCore rest
  match frag with
  | none => return u
  | some f => return { u with fragment := ⟨f⟩ }

/-- Everything up to and including the last '/'
(Go base[:strings.LastIndex(base, "/")+1], empty when there is none). -/
def upToLastSlash : List Char → List Char
  | [] => []
  | c :: cs =>
    if '/' ∈ cs then c :: upToLastSlash cs
    else if c = '/' then ['/'] else []

/-- strings.Split on '/'. -/
def splitSlash : List Char → List (List Char)
  | [] => [[]]
  | c :: cs =>
    if c = '/' then [] :: splitSlash cs
    else
      match splitSlash cs with
      | [] => [[c]]
      | s :: rest => (c :: s) :: rest

def joinSlash (l : List (List Char)) : List Char :=
  (l.intersperse ['/']).flatten

/-- One step of dot-segment elimination (the loop body of net/url
resolvePath, Go 1.10). -/
def resolveStep (dst : List (List Char)) (elem : List Char) : List (List Char) :=
  if elem = ['.'] then dst
  else if elem = ['.', '.'] then dst.dropLast
  else dst ++ [elem]

def trimOneLeadingSlash (l : List Char) : List Char :=
  match l with
  | '/' :: rest => rest
  | _ => l

/-- net/url resolvePath (Go 1.10). -/
def resolvePath (base ref : List Char) : List Char :=
  let full :=
    if ref = [] then base
    else if ¬ listStartsWith ref ['/'] then upToLastSlash base ++ ref
    else ref
  if full = [] then []
  else
    let src := splitSlash full
    let dst := src.foldl resolveStep []
    let dst :=
      if src.getLast? = some ['.'] ∨ src.getLast? = some ['.', '.'] then dst ++ [[]]
      else dst
    '/' :: trimOneLeadingSlash (joinSlash dst)

/-- url.URL.ResolveReference (Go 1.10 control flow; User is always nil in
this subset and setPath stores the raw text). -/
def resolveReference (u ref : URLV) : URLV :=
  if ref.scheme ≠ "" ∨ ref.host ≠ "" then
    { ref with
      scheme := if ref.scheme = "" then u.scheme else ref.scheme,
      path := ⟨resolvePath ref.path.toList []⟩ }
  else if ref.opq ≠ "" then
    { ref with scheme := u.scheme, host := "", path := "" }
  else
    let url :=
      if ref.path = "" ∧ ref.rawQuery = "" then
        { ref with
          scheme := u.scheme, rawQuery := u.rawQuery,
          fragment := if ref.fragment = "" then u.fragment else ref.fragment }
      else { ref with scheme := u.scheme }
    { url with host := u.host, path := ⟨resolvePath u.path.toList ref.path.toList⟩ }

/-! ## Bodies and codecs (marshaling.go; encoding/json modelled on flat
objects whose strings need no escaping) -/

/-- A field value of a struct body (the subset of Go values the tests
exercise: strings, integers, booleans). -/
inductive FieldV
  | fs (v : String)
  | fn (v : Int)
  | fb (v : Bool)
deriving DecidableEq, Repr

/-- A struct body value: field name (as serialised) paired with value. -/
abbrev StructV := List (String × FieldV)

def jsonFieldBytes : FieldV → List Nat
  | .fs v => 34 :: (strBytes v ++ [34])
  | .fn v => strBytes (toString v)
  | .fb v => strBytes (if v then "true" else "false")

/-- encoding/json Marshal of a flat object, as bytes (123/125 are the
braces, 34 the quote, 58 the colon, 44 the comma). -/
def jsonEncode (v : StructV) : List Nat :=
  123 :: (List.intercalate [44]
    (v.map (fun p => 34 :: (strBytes p.1 ++ [34, 58] ++ jsonFieldBytes p.2))) ++ [125])

/-- The BodyMarshaler capability: marshal(value) = (bytes, contentType)
or an error (marshaling.go). -/
abbrev MarshalFn := StructV → Except GoErr (List Nat × String)

/-- The BodyUnmarshaler capability: unmarshal(bytes, contentType, target)
returns the error, if any (marshaling.go; the mutation of the target is
not observed by any claim). -/
abbrev UnmFn := List Nat → String → Option GoErr

def CONTENT_TYPE_JSON : String := "application/json"
def CONTENT_TYPE_XML : String := "application/xml"
def CONTENT_TYPE_FORM : String := "application/x-www-form-urlencoded"

def fieldVStr : FieldV → String
  | .fs v => v
  | .fn v => toString v
  | .fb v => if v then "true" else "false"

/-- JSONMarshaler.Marshal.  The indented variant differs from the compact
one only in inserted whitespace, which no claim observes; both are
modelled by the compact encoding. -/
def JSONMarshalerMarshal (_indent : Bool) : MarshalFn := fun v =>
  .ok (jsonEncode v, CONTENT_TYPE_JSON)

/-- XMLMarshaler.Marshal.  encoding/xml byte output is not observed by any
claim; only the content type is.  The bytes are modelled crudely as the
concatenated field texts. -/
def XMLMarshalerMarshal (_indent : Bool) : MarshalFn := fun v =>
  .ok ((v.map (fun p => strBytes p.1 ++ strBytes (fieldVStr p.2))).flatten, CONTENT_TYPE_XML)

/-- FormMarshaler.Marshal: goquery.Values then url.Values.Encode. -/
def FormMarshalerMarshal : MarshalFn := fun v =>
  .ok (strBytes (valuesEncode (v.map (fun p => (p.1, [fieldVStr p.2])))), CONTENT_TYPE_FORM)

/-- marshaling.go: DefaultMarshaler = &JSONMarshaler... (Indent false). -/
def DefaultMarshaler : MarshalFn := JSONMarshalerMarshal false

/-- The Body field of Requests: nil, an io.Reader, a string, a byte
slice, or a struct value for the marshaler. -/
inductive BodyV
  | bnil
  | reader (bytes : List Nat)
  | str (s : String)
  | bytes (b : List Nat)
  | structured (v : StructV)
deriving DecidableEq, Repr

/-- The io.Reader produced by getRequestBody: either the Body's own
reader used directly, or a strings.NewReader / bytes.NewReader wrapper. -/
inductive BodyReader
  | direct (bytes : List Nat)
  | fromStr (s : String)
  | fromBytes (b : List Nat)
deriving DecidableEq, Repr

/-! ## Requests, requests (requests.go) and responses -/

/-- The wire response, with the outcome of reading its body stream:
ioutil.ReadAll yields (body, readErr). -/
structure Response where
  statusCode : Nat
  header : MapObj
  body : List Nat
  readErr : Option GoErr
deriving DecidableEq, Repr

/-- The materialized http.Request.  Its Header is a fresh map object in
the heap; Trailer aliases the Requests' trailer map (requests.go line
req.Trailer = reqs.Trailer).  ctx is the bound context, as a token. -/
structure ReqOut where
  method : String
  url : URLV
  header : Ref
  host : String
  contentLength : Int
  transferEncoding : List String
  closeFlag : Bool
  trailer : Option Ref
  getBody : Option Nat
  body : Option BodyReader
  ctx : Nat
deriving DecidableEq, Repr

/-- The Doer capability: send(request) = response or error. -/
abbrev DoerF := ReqOut → Except GoErr Response

/-- Modelled from the spec: the Middleware type is part of this
repository but missing from the sources at hand (only Use and Wrap call
sites survive); per the spec a middleware is a wrapper function over the
send operation. -/
abbrev MiddlewareF := DoerF → DoerF

/-- Modelled from the spec: Wrap composes middleware so that the first
registered middleware is the outermost layer (execution order equals
registration order). -/
def WrapFn (d : DoerF) (ms : List MiddlewareF) : DoerF :=
  ms.foldr (fun m acc => m acc) d

/-- The Requests configuration object (requests.go).  GetBody is an
uninterpreted replay-function token; Close is named closeFlag.  A nil
Doer / Marshaler / Unmarshaler is none (use the defaults). -/
structure Requests where
  doer : Option DoerF
  middleware : List MiddlewareF
  method : String
  url : Option URLV
  header : Option Ref
  getBody : Option Nat
  contentLength : Int
  transferEncoding : List String
  closeFlag : Bool
  host : String
  trailer : Option Ref
  queryParams : Option Ref
  marshaler : Option MarshalFn
  unmarshaler : Option UnmFn
  body : BodyV

/-- The zero value &Requests constructed by New. -/
def emptyRequests : Requests :=
  { doer := none, middleware := [], method := "", url := none, header := none,
    getBody := none, contentLength := 0, transferEncoding := [], closeFlag := false,
    host := "", trailer := none, queryParams := none, marshaler := none,
    unmarshaler := none, body := .bnil }

/-- Observable contents of a header-like field (none models a nil map). -/
def obsMap (h : Heap) : Option Ref → Option MapObj
  | none => none
  | some r => some (heapGet h r)

def obsHeader (r : Requests) (h : Heap) : Option MapObj := obsMap h r.header
def obsTrailer (r : Requests) (h : Heap) : Option MapObj := obsMap h r.trailer
def obsQueryParams (r : Requests) (h : Heap) : Option MapObj := obsMap h r.queryParams

/-- Lookup treating a nil map as empty (Go indexing on a nil map). -/
def obsMapD (h : Heap) : Option Ref → MapObj
  | none => []
  | some r => heapGet h r

def refValidB (h : Heap) : Option Ref → Bool
  | none => true
  | some r => r < h.length

/-- All map references of a Requests point into the heap (the translation
of Go pointer well-formedness; always true of values built by the API). -/
def validRefsB (r : Requests) (h : Heap) : Bool :=
  refValidB h r.header && refValidB h r.trailer && refValidB h r.queryParams

/-! ## Clone (requests.go) -/

/-- cloneHeader / cloneValues: nil stays nil, otherwise a fresh map with
the same entries is allocated. -/
def cloneMapRef (h : Heap) : Option Ref → Heap × Option Ref
  | none => (h, none)
  | some r =>
    let p := heapAlloc h (heapGet h r)
    (p.1, some p.2)

/-- Requests.Clone: shallow copy of the struct, with Header, Trailer, URL
and QueryParams deep-copied (URL is a value in this model, so its copy is
implicit in value passing). -/
def CloneFn (r : Requests) (h : Heap) : Requests × Heap :=
  let ph := cloneMapRef h r.header
  let pt := cloneMapRef ph.1 r.trailer
  let pq := cloneMapRef pt.1 r.queryParams
  ({ r with header := ph.2, trailer := pt.2, queryParams := pq.2 }, pq.1)

/-! ## The option vocabulary (options.go) and its denotation -/

/-- A query-parameter source accepted by QueryParams: nil, a
map[string][]string, a url.Values, a url-tagged struct (carried as the
multi-valued mapping goquery.Values produces for it), or a value
goquery.Values rejects (carried with the error it reports). -/
inductive QuerySource
  | qnil
  | qmap (m : MapObj)
  | qvalues (m : MapObj)
  | qstruct (fields : MapObj)
  | qbad (e : GoErr)

/-- The named options of options.go.  OptionFunc values defined outside
the package are not part of the vocabulary: every option here acts only
through the Requests it is applied to, as the package's own options do.
Client is carried as the result of clients.NewClient (an external
collaborator): either the constructed Doer or the construction error. -/
inductive OptionV
  | method (m : String) (paths : List String)
  | addHeader (k v : String)
  | headerOpt (k v : String)
  | deleteHeader (k : String)
  | basicAuth (username password : String)
  | bearerAuth (token : String)
  | urlOpt (p : String)
  | relativeURL (p : String)
  | queryParams (sources : List QuerySource)
  | bodyOpt (b : BodyV)
  | marshalerOpt (m : MarshalFn)
  | unmarshalerOpt (m : UnmFn)
  | accept (s : String)
  | contentType (s : String)
  | hostOpt (s : String)
  | jsonOpt (indent : Bool)
  | xmlOpt (indent : Bool)
  | formOpt
  | clientOpt (c : Except GoErr DoerF)
  | useOpt (ms : List MiddlewareF)
  | withDoer (d : DoerF)

/-- AddHeader/Header: if b.Header == nil, b.Header = make(http.Header). -/
def headerEnsure (r : Requests) (h : Heap) : Ref × Requests × Heap :=
  match r.header with
  | some ref => (ref, r, h)
  | none =>
    let p := heapAlloc h []
    (p.2, { r with header := some p.2 }, p.1)

/-- b.Header.Add(key, value) with nil-map initialisation. -/
def addHeaderStep (k v : String) (r : Requests) (h : Heap) : Requests × Heap :=
  let (ref, r1, h1) := headerEnsure r h
  (r1, heapSet h1 ref (headerAdd (heapGet h1 ref) k v))

/-- b.Header.Set(key, value) with nil-map initialisation. -/
def setHeaderStep (k v : String) (r : Requests) (h : Heap) : Requests × Heap :=
  let (ref, r1, h1) := headerEnsure r h
  (r1, heapSet h1 ref (headerSet (heapGet h1 ref) k v))

/-- b.Header.Del(key); Del on a nil map is a no-op. -/
def delHeaderStep (k : String) (r : Requests) (h : Heap) : Requests × Heap :=
  match r.header with
  | none => (r, h)
  | some ref => (r, heapSet h ref (headerDel (heapGet h ref) k))

/-- The canonical multi-valued mapping of one source, or the error for an
unsupported source (goquery.Values failure, wrapped "invalid query
struct").  A nil source contributes nothing. -/
def sourceValues : QuerySource → Except GoErr MapObj
  | .qnil => .ok []
  | .qmap m => .ok m
  | .qvalues m => .ok m
  | .qstruct fields => .ok fields
  | .qbad e => .error (.prepend "invalid query struct" e)

/-- The merge loop of QueryParams: every value of every key of the source
is added (url.Values.Add) to the accumulator. -/
def mergeValues (dst src : MapObj) : MapObj :=
  src.foldl (fun d p => p.2.foldl (fun d2 v => mapAdd d2 p.1 v) d) dst

/-- The source loop of QueryParams; the first bad source stops the loop,
keeping the merges already done. -/
def mergeSources : List QuerySource → MapObj → Option GoErr × MapObj
  | [], acc => (none, acc)
  | s :: rest, acc =>
    match sourceValues s with
    | .error e => (some e, acc)
    | .ok m => mergeSources rest (mergeValues acc m)

/-- QueryParams option: initialise s.QueryParams if nil, then merge all
sources additively. -/
def queryParamsStep (sources : List QuerySource) (r : Requests) (h : Heap) :
    Option GoErr × Requests × Heap :=
  let (ref, r1, h1) :=
    match r.queryParams with
    | some ref => (ref, r, h)
    | none =>
      let p := heapAlloc h []
      (p.2, { r with queryParams := some p.2 }, p.1)
  let res := mergeSources sources (heapGet h1 ref)
  (res.1, r1, heapSet h1 ref res.2)

/-- RelativeURL option: parse, then adopt or resolve against the current
URL; parse errors are prepended "invalid url". -/
def relativeURLStep (p : String) (r : Requests) (h : Heap) :
    Option GoErr × Requests × Heap :=
  match urlParse p with
  | .error e => (some (.prepend "invalid url" e), r, h)
  | .ok u =>
    match r.url with
    | none => (none, { r with url := some u }, h)
    | some base => (none, { r with url := some (resolveReference base u) }, h)

/-- The loop of Method over its path arguments. -/
def relativeURLList : List String → Requests → Heap → Option GoErr × Requests × Heap
  | [], r, h => (none, r, h)
  | p :: ps, r, h =>
    match relativeURLStep p r h with
    | (some e, r1, h1) => (some e, r1, h1)
    | (none, r1, h1) => relativeURLList ps r1 h1

/-- Option.Apply for each named option (options.go).  The result is
(error, receiver, heap): Go mutates the receiver in place, so the
receiver state is meaningful even when an error is returned. -/
def applyOption : OptionV → Requests → Heap → Option GoErr × Requests × Heap
  | .method m paths, r, h => relativeURLList paths { r with method := m } h
  | .addHeader k v, r, h =>
    let p := addHeaderStep k v r h
    (none, p.1, p.2)
  | .headerOpt k v, r, h =>
    let p := setHeaderStep k v r h
    (none, p.1, p.2)
  | .deleteHeader k, r, h =>
    let p := delHeaderStep k r h
    (none, p.1, p.2)
  | .basicAuth username password, r, h =>
    let p := setHeaderStep "Authorization" ("Basic " ++ basicAuthStr username password) r h
    (none, p.1, p.2)
  | .bearerAuth token, r, h =>
    if token = "" then
      let p := delHeaderStep "Authorization" r h
      (none, p.1, p.2)
    else
      let p := setHeaderStep "Authorization" ("Bearer " ++ token) r h
      (none, p.1, p.2)
  | .urlOpt p, r, h =>
    match urlParse p with
    | .error e => (some (.prepend "invalid url" e), r, h)
    | .ok u => (none, { r with url := some u }, h)
  | .relativeURL p, r, h => relativeURLStep p r h
  | .queryParams sources, r, h => queryParamsStep sources r h
  | .bodyOpt b, r, h => (none, { r with body := b }, h)
  | .marshalerOpt m, r, h => (none, { r with marshaler := some m }, h)
  | .unmarshalerOpt m, r, h => (none, { r with unmarshaler := some m }, h)
  | .accept s, r, h =>
    let p := setHeaderStep "Accept" s r h
    (none, p.1, p.2)
  | .contentType s, r, h =>
    let p := setHeaderStep "Content-Type" s r h
    (none, p.1, p.2)
  | .hostOpt s, r, h => (none, { r with host := s }, h)
  | .jsonOpt indent, r, h => (none, { r with marshaler := some (JSONMarshalerMarshal indent) }, h)
  | .xmlOpt indent, r, h => (none, { r with marshaler := some (XMLMarshalerMarshal indent) }, h)
  | .formOpt, r, h => (none, { r with marshaler := some FormMarshalerMarshal }, h)
  | .clientOpt c, r, h =>
    match c with
    | .error e => (some e, r, h)
    | .ok d => (none, { r with doer := some d }, h)
  | .useOpt ms, r, h => (none, { r with middleware := r.middleware ++ ms }, h)
  | .withDoer d, r, h => (none, { r with doer := some d }, h)

/-- Requests.Apply: options applied in order, first error returned
prepended with "applying options". -/
def ApplyFn : List OptionV → Requests → Heap → Option GoErr × Requests × Heap
  | [], r, h => (none, r, h)
  | o :: os, r, h =>
    match applyOption o r h with
    | (some e, r1, h1) => (some (.prepend "applying options" e), r1, h1)
    | (none, r1, h1) => ApplyFn os r1 h1

/-- Requests.With: clone, apply to the clone; on error the clone is
discarded (nil, err). -/
def WithFn (r : Requests) (opts : List OptionV) (h : Heap) :
    Except GoErr Requests × Heap :=
  match ApplyFn opts (CloneFn r h).1 (CloneFn r h).2 with
  | (some e, _, h1) => (.error e, h1)
  | (none, r2, h1) => (.ok r2, h1)

/-- New: apply the options to a zero Requests; merry.Wrap only decorates
with a stack, modelled as the identity on the error value. -/
def NewFn (opts : List OptionV) (h : Heap) : Except GoErr Requests × Heap :=
  match ApplyFn opts emptyRequests h with
  | (some e, _, h1) => (.error e, h1)
  | (none, r, h1) => (.ok r, h1)

/-! ## Materialization (requests.go) -/

/-- getRequestBody: the reader and content type for the request body. -/
def getRequestBodyFn (r : Requests) : Except GoErr (Option BodyReader × String) :=
  match r.body with
  | .bnil => .ok (none, "")
  | .reader bs => .ok (some (.direct bs), "")
  | .str s => .ok (some (.fromStr s), "")
  | .bytes b => .ok (some (.fromBytes b), "")
  | .structured v =>
    match (r.marshaler.getD DefaultMarshaler) v with
    | .error e => .error e
    | .ok (b, ct) => .ok (some (.fromBytes b), ct)

/-- ContentLength auto-population of net/http NewRequest (known reader
types report their length; an arbitrary io.Reader reports nothing). -/
def bodyAutoLen : Option BodyReader → Int
  | some (.fromStr s) => (strBytes s).length
  | some (.fromBytes b) => b.length
  | _ => 0

/-- GetBody auto-population of net/http NewRequest, as a token. -/
def bodyAutoGetBody : Option BodyReader → Option Nat
  | some (.fromStr _) => some 0
  | some (.fromBytes _) => some 0
  | _ => none

/-- net/http validMethod: a non-empty token. -/
def validMethod (m : String) : Bool :=
  decide (0 < m.length) && m.toList.all validHeaderFieldChar

/-- net/http NewRequest: default method GET, method token check, URL
parse, fresh Header map, Host from the URL. -/
def newRequest (method0 urlS : String) (body : Option BodyReader) (h : Heap) :
    Except GoErr ReqOut × Heap :=
  let method := if method0 = "" then "GET" else method0
  if validMethod method then
    match urlParse urlS with
    | .error e => (.error e, h)
    | .ok u =>
      let p := heapAlloc h []
      (.ok { method := method, url := u, header := p.2, host := u.host,
             contentLength := bodyAutoLen body, transferEncoding := [],
             closeFlag := false, trailer := none,
             getBody := bodyAutoGetBody body, body := body, ctx := 0 }, p.1)
  else (.error (.msg ("net/http: invalid method " ++ method)), h)

/-- The header-copy loop of RequestContext: for k, v := range reqs.Header,
req.Header[k] = v (raw map assignment, whole value slice replaced). -/
def copyEntries (src dst : MapObj) : MapObj :=
  src.foldl (fun d p => mapSetEntry d p.1 p.2) dst

/-- The per-request option application shared by RequestContext
(requests.go lines 140-147) and DoContext (lines 237-244): clone-and-apply
via With when options are present, the receiver itself otherwise. -/
def effectiveReqs (r : Requests) (opts : List OptionV) (h : Heap) :
    Except GoErr Requests × Heap :=
  if opts.length > 0 then WithFn r opts h else (.ok r, h)

/-- The body of Requests.RequestContext after its option handling:
resolve the body, build the request, overlay content type, advanced
fields, headers and query parameters, bind the context. -/
def requestContextCore (reqs : Requests) (ctx : Nat) (h1 : Heap) :
    Except GoErr ReqOut × Heap :=
    match getRequestBodyFn reqs with
    | .error e => (.error e, h1)
    | .ok (bodyData, ct) =>
      let urlS := match reqs.url with
        | none => ""
        | some u => urlString u
      match newRequest reqs.method urlS bodyData h1 with
      | (.error e, h2) => (.error e, h2)
      | (.ok req, h2) =>
        -- if we marshaled the body, use our content type (set before the
        -- header copy, so explicitly set caller headers overwrite it)
        let h3 :=
          if ct ≠ "" then
            heapSet h2 req.header (headerSet (heapGet h2 req.header) "Content-Type" ct)
          else h2
        let h4 := match reqs.header with
          | none => h3
          | some ref => heapSet h3 req.header (copyEntries (heapGet h3 ref) (heapGet h3 req.header))
        let qp := obsMapD h4 reqs.queryParams
        -- each field below is the final value the source's sequence of
        -- conditional assignments leaves in the request
        let rq :=
          if qp.length > 0 then
            (if req.url.rawQuery ≠ "" then req.url.rawQuery ++ "&" ++ valuesEncode qp
             else valuesEncode qp)
          else req.url.rawQuery
        (.ok { req with
                url := { req.url with rawQuery := rq },
                contentLength := if reqs.contentLength ≠ 0 then reqs.contentLength else req.contentLength,
                getBody := match reqs.getBody with
                  | some g => some g
                  | none => req.getBody,
                host := if reqs.host ≠ "" then reqs.host else req.host,
                transferEncoding := reqs.transferEncoding,
                closeFlag := reqs.closeFlag,
                trailer := reqs.trailer,
                ctx := ctx }, h4)

/-- Requests.RequestContext: apply per-request options via With, then
materialize. -/
def requestContextFn (r : Requests) (ctx : Nat) (opts : List OptionV) (h : Heap) :
    Except GoErr ReqOut × Heap :=
  match effectiveReqs r opts h with
  | (.error e, h1) => (.error e, h1)
  | (.ok reqs, h1) => requestContextCore reqs ctx h1

/-- Requests.Request: drops its option arguments and delegates to
RequestContext with the background context (requests.go lines 130-132). -/
def RequestFn (r : Requests) (_opts : List OptionV) (h : Heap) :
    Except GoErr ReqOut × Heap :=
  requestContextFn r 0 [] h

/-! ## Sending (requests.go DoContext / Do) -/

/-- Requests.DoContext: apply options, materialize, send through the
middleware-wrapped Doer (http.DefaultClient when nil, passed as dflt). -/
def DoContextFn (r : Requests) (ctx : Nat) (opts : List OptionV) (dflt : DoerF) (h : Heap) :
    Except GoErr Response × Heap :=
  match effectiveReqs r opts h with
  | (.error e, h1) => (.error e, h1)
  | (.ok reqs, h1) =>
    match requestContextFn reqs ctx [] h1 with
    | (.error e, h2) => (.error e, h2)
    | (.ok req, h2) => (WrapFn (reqs.doer.getD dflt) reqs.middleware req, h2)

/-- Requests.Do: drops its option arguments and delegates to DoContext
with the background context (requests.go lines 262-264). -/
def DoFn (r : Requests) (_opts : List OptionV) (dflt : DoerF) (h : Heap) :
    Except GoErr Response × Heap :=
  DoContextFn r 0 [] dflt h

/-! ## Receiving (requests.go) -/

/-- Decode-target selection of ReceiveFullContext: 2XX selects successV,
anything else selects failureV.  Targets are modelled by presence. -/
def selectTarget (code : Nat) (successV failureV : Option Unit) : Option Unit :=
  if 200 ≤ code ∧ code ≤ 299 then successV else failureV

/-- Requests.ReceiveFullContext: send, read the whole body, select the
decode target by status class, decode if the target is non-nil; the read
body bytes are returned in every case.  The unmarshaler is taken from the
original receiver; dfltUnm stands for the package-wide DefaultUnmarshaler. -/
def ReceiveFullContextFn (r : Requests) (ctx : Nat) (successV failureV : Option Unit)
    (opts : List OptionV) (dflt : DoerF) (dfltUnm : UnmFn) (h : Heap) :
    (Option Response × List Nat × Option GoErr) × Heap :=
  match DoContextFn r ctx opts dflt h with
  | (.error e, h1) => ((none, [], some e), h1)
  | (.ok resp, h1) =>
    match resp.readErr with
    | some e => ((some resp, resp.body, some e), h1)
    | none =>
      match selectTarget resp.statusCode successV failureV with
      | none => ((some resp, resp.body, none), h1)
      | some _ =>
        ((some resp, resp.body,
          (r.unmarshaler.getD dfltUnm) resp.body (headerGet resp.header "Content-Type")), h1)

/-- Requests.ReceiveContext: drops its option arguments (and passes a nil
failure target) when delegating to ReceiveFullContext (requests.go lines
274-276). -/
def ReceiveContextFn (r : Requests) (ctx : Nat) (successV : Option Unit)
    (_opts : List OptionV) (dflt : DoerF) (dfltUnm : UnmFn) (h : Heap) :
    (Option Response × List Nat × Option GoErr) × Heap :=
  ReceiveFullContextFn r ctx successV none [] dflt dfltUnm h

/-! ## Package-level functions (package_functions.go) -/

/-- Package RequestContext: New(opts...) then r.RequestContext(ctx). -/
def pkgRequestContextFn (ctx : Nat) (opts : List OptionV) (h : Heap) :
    Except GoErr ReqOut × Heap :=
  match NewFn opts h with
  | (.error e, h1) => (.error e, h1)
  | (.ok r, h1) => requestContextFn r ctx [] h1

/-- Package DoContext: New(opts...) then r.DoContext(ctx, opts...) -- the
options are applied a second time by the method. -/
def pkgDoContextFn (ctx : Nat) (opts : List OptionV) (dflt : DoerF) (h : Heap) :
    Except GoErr Response × Heap :=
  match NewFn opts h with
  | (.error e, h1) => (.error e, h1)
  | (.ok r, h1) => DoContextFn r ctx opts dflt h1

/-- Package ReceiveFullContext: New(opts...) then
r.ReceiveFullContext(ctx, successV, failureV, opts...) -- the options are
applied a second time by the method.  (The Go declaration converts the
body bytes to a string; the bytes themselves are returned here.) -/
def pkgReceiveFullContextFn (ctx : Nat) (successV failureV : Option Unit)
    (opts : List OptionV) (dflt : DoerF) (dfltUnm : UnmFn) (h : Heap) :
    (Option Response × List Nat × Option GoErr) × Heap :=
  match NewFn opts h with
  | (.error e, h1) => ((none, [], some e), h1)
  | (.ok r, h1) => ReceiveFullContextFn r ctx successV failureV opts dflt dfltUnm h1

/-! ## Observable view of a materialized request -/

/-- A materialized request with its freshly allocated header map
dereferenced: what a caller can observe of it.  The trailer field stays a
reference because the materialized request aliases the configuration's
trailer map (req.Trailer = reqs.Trailer), so reference equality is the
faithful observation. -/
structure ObsReq where
  method : String
  url : URLV
  headerC : MapObj
  host : String
  contentLength : Int
  transferEncoding : List String
  closeFlag : Bool
  trailer : Option Ref
  getBody : Option Nat
  body : Option BodyReader
  ctx : Nat
deriving DecidableEq, Repr

def reqObs (req : ReqOut) (h : Heap) : ObsReq :=
  { method := req.method, url := req.url, headerC := heapGet h req.header,
    host := req.host, contentLength := req.contentLength,
    transferEncoding := req.transferEncoding, closeFlag := req.closeFlag,
    trailer := req.trailer, getBody := req.getBody,
    body := req.body, ctx := req.ctx }

/-! ## Heap-frame predicates used by the isolation theorems -/

/-- Heap h2 agrees with h on every address below N. -/
def heapLE (N : Nat) (h h2 : Heap) : Prop := ∀ i, i < N → heapGet h2 i = heapGet h i

/-- An optional reference lies at or above N. -/
def refLE (N : Nat) : Option Ref → Prop
  | none => True
  | some x => N ≤ x

/-- All map references of a Requests lie at or above N. -/
def refsLE (N : Nat) (r : Requests) : Prop :=
  refLE N r.header ∧ refLE N r.trailer ∧ refLE N r.queryParams

/-- The observable outcome of materialization, as a pure function of the
Requests value and the observable contents of its maps (hdrC, qpC, trlC
are what its header/queryParams/trailer refs dereference to).  This is
proved to coincide with requestContextCore (requestContextCore_obs
below); the claims about materialization are stated against
requestContextFn and requestContextCore. -/
def materializeObs (r : Requests) (ctx : Nat) (hdrC qpC : MapObj) :
    Except GoErr ObsReq :=
  match getRequestBodyFn r with
  | .error e => .error e
  | .ok (bodyData, ct) =>
    let urlS := match r.url with
      | none => ""
      | some u => urlString u
    let method := if r.method = "" then "GET" else r.method
    if validMethod method then
      match urlParse urlS with
      | .error e => .error e
      | .ok u =>
        let hdr1 := if ct ≠ "" then headerSet [] "Content-Type" ct else []
        let hdr2 := copyEntries hdrC hdr1
        let rq :=
          if qpC.length > 0 then
            (if u.rawQuery ≠ "" then u.rawQuery ++ "&" ++ valuesEncode qpC
             else valuesEncode qpC)
          else u.rawQuery
        .ok { method := method, url := { u with rawQuery := rq }, headerC := hdr2,
              host := if r.host ≠ "" then r.host else u.host,
              contentLength := if r.contentLength ≠ 0 then r.contentLength else bodyAutoLen bodyData,
              transferEncoding := r.transferEncoding, closeFlag := r.closeFlag,
              trailer := r.trailer,
              getBody := match r.getBody with
                | some g => some g
                | none => bodyAutoGetBody bodyData,
              body := bodyData, ctx := ctx }
    else .error (.msg ("net/http: invalid method " ++ method))

/-- Whether a query source is accepted by QueryParams (everything except
a value goquery rejects). -/
def goodSource : QuerySource → Bool
  | .qbad _ => false
  | _ => true

/-- The canonical multi-valued mapping of a source, with a rejected
source contributing nothing (it never merges). -/
def sourceValuesD : QuerySource → MapObj
  | .qnil => []
  | .qmap m => m
  | .qvalues m => m
  | .qstruct fields => fields
  | .qbad _ => []

/-- All values a mapping holds for a key, in entry order. -/
def entryVals (m : MapObj) (k : String) : List String :=
  ((m.filter (fun p => p.1 = k)).map (·.2)).flatten

/-- All values the given sources contribute for a key, in source order
then entry order within a source. -/
def sourcesVals (ss : List QuerySource) (k : String) : List String :=
  (ss.map (fun s => entryVals (sourceValuesD s) k)).flatten

/-- RFC 3986 unreserved characters. -/
def isUnreserved (c : Char) : Bool :=
  c.isAlphanum || c = '-' || c = '.' || c = '_' || c = '~'

/-- Characters allowed in the clean path class of the amended C5:
unreserved characters and the segment separator. -/
def cleanSegChar (c : Char) : Bool := isUnreserved c || c = '/'

/-- No "." or ".." segment anywhere in the path text. -/
def segmentsOK (l : List Char) : Bool :=
  (splitSlash l).all (fun seg => seg ≠ ['.'] && seg ≠ ['.', '.'])

/-! ## Concrete fixtures used by the witness theorems -/

def wURL : URLV :=
  { URLV.empty with scheme := "http", host := "a.io", path := "/foo", rawQuery := "color=red" }

def wHeap : Heap := [[("Accept", ["application/json"])], [("limit", ["30"])]]

def wReq : Requests :=
  { emptyRequests with
    url := some wURL, header := some 0, queryParams := some 1,
    body := .structured [("text", .fs "note"), ("favorite_count", .fn 12)] }

def wOpts1 : List OptionV :=
  [.addHeader "X-Key" "1", .queryParams [.qvalues [("limit", ["30"])]], .bodyOpt (.str "hi")]

def wResp : Response :=
  { statusCode := 206, header := [("Content-Type", ["application/json"])],
    body := [123, 125], readErr := none }

def wDoer : DoerF := fun _ => .ok wResp

/-- A configuration with a stub transport, for the receive witnesses. -/
def wReqD : Requests := { emptyRequests with doer := some wDoer, url := some wURL }

def wUnm : UnmFn := fun _ _ => none

def wSources : List QuerySource := [.qvalues [("limit", ["30"])]]

def wBodyBytes : List Nat := jsonEncode [("text", .fs "note"), ("favorite_count", .fn 12)]

/-- The request wReq materializes to (computed by the model). -/
def wMatReq : ReqOut :=
  { method := "GET",
    url := { scheme := "http", opq := "", host := "a.io", path := "/foo",
             forceQuery := false, rawQuery := "color=red&limit=30", fragment := "" },
    header := 2, host := "a.io", contentLength := 35, transferEncoding := [],
    closeFlag := false, trailer := none, getBody := some 0,
    body := some (.fromBytes wBodyBytes), ctx := 0 }

/-- The parse of "http://a.io/". -/
def wBase : URLV :=
  { scheme := "http", opq := "", host := "a.io", path := "/",
    forceQuery := false, rawQuery := "", fragment := "" }

def wPre : List OptionV := [.hostOpt "x"]
def wFailOpt : OptionV := .urlOpt "://bad"
def wPost : List OptionV := [.hostOpt "y"]
def wErr : GoErr := .prepend "invalid url" (.msg "missing protocol scheme")
def wR1 : Requests := { wReq with host := "x" }

/-! # Lemmas: heap frames -/

theorem heapGet_set_ne (h : Heap) (r : Ref) (m : MapObj) (i : Nat) (hne : i ≠ r) :
    heapGet (heapSet h r m) i = heapGet h i := by
  unfold heapGet heapSet
  rw [List.getD_eq_getElem?_getD, List.getD_eq_getElem?_getD,
    List.getElem?_set_ne (Ne.symm hne)]

theorem heapGet_append_lt (h : Heap) (m : MapObj) (i : Nat) (hi : i < h.length) :
    heapGet (h ++ [m]) i = heapGet h i := by
  unfold heapGet
  rw [List.getD_eq_getElem?_getD, List.getD_eq_getElem?_getD,
    List.getElem?_append_left hi]

theorem heapGet_append_self (h : Heap) (m : MapObj) :
    heapGet (h ++ [m]) h.length = m := by
  unfold heapGet
  rw [List.getD_eq_getElem?_getD]
  simp

theorem heapGet_set_self (h : Heap) (r : Ref) (m : MapObj) (hr : r < h.length) :
    heapGet (heapSet h r m) r = m := by
  unfold heapGet heapSet
  rw [List.getD_eq_getElem?_getD]
  simp [List.getElem?_set_self, hr]

theorem heapLE_refl (N : Nat) (h : Heap) : heapLE N h h := fun _ _ => rfl

theorem heapLE_trans {N : Nat} {h1 h2 h3 : Heap} (a : heapLE N h1 h2) (b : heapLE N h2 h3) :
    heapLE N h1 h3 := fun i hi => (b i hi).trans (a i hi)

theorem heapLE_set {N : Nat} (h : Heap) {r : Ref} (m : MapObj) (hr : N ≤ r) :
    heapLE N h (heapSet h r m) :=
  fun i hi => heapGet_set_ne h r m i (Nat.ne_of_lt (Nat.lt_of_lt_of_le hi hr))

theorem heapLE_alloc {N : Nat} (h : Heap) (m : MapObj) (hN : N ≤ h.length) :
    heapLE N h (h ++ [m]) :=
  fun i hi => heapGet_append_lt h m i (Nat.lt_of_lt_of_le hi hN)

theorem obsMap_eq_of_heapLE {h h2 : Heap} (a : heapLE h.length h h2) {o : Option Ref}
    (ho : refValidB h o = true) : obsMap h2 o = obsMap h o := by
  cases o with
  | none => rfl
  | some ref =>
    have : ref < h.length := by simpa [refValidB] using ho
    simp [obsMap, a ref this]

/-! # Lemmas: frame properties of option application -/

theorem setHeaderStep_frame (k v : String) (r : Requests) (h : Heap) (N : Nat)
    (hr : refsLE N r) (hN : N ≤ h.length) :
    heapLE N h (setHeaderStep k v r h).2 ∧ refsLE N (setHeaderStep k v r h).1 ∧
    N ≤ (setHeaderStep k v r h).2.length := by
  obtain ⟨hh1, hh2, hh3⟩ := hr
  cases hdr : r.header with
  | none =>
    have e : setHeaderStep k v r h =
        ({ r with header := some h.length },
          heapSet (h ++ [[]]) h.length (headerSet (heapGet (h ++ [[]]) h.length) k v)) := by
      simp [setHeaderStep, headerEnsure, hdr, heapAlloc]
    rw [e]
    refine ⟨heapLE_trans (heapLE_alloc h [] hN) (heapLE_set _ _ hN), ⟨hN, hh2, hh3⟩, ?_⟩
    simpa [heapSet] using Nat.le_succ_of_le hN
  | some ref =>
    have hle : N ≤ ref := by
      have h1c := hh1
      rw [hdr] at h1c
      exact h1c
    have e : setHeaderStep k v r h =
        (r, heapSet h ref (headerSet (heapGet h ref) k v)) := by
      simp [setHeaderStep, headerEnsure, hdr]
    rw [e]
    exact ⟨heapLE_set _ _ hle, ⟨hh1, hh2, hh3⟩, by simpa [heapSet] using hN⟩

theorem addHeaderStep_frame (k v : String) (r : Requests) (h : Heap) (N : Nat)
    (hr : refsLE N r) (hN : N ≤ h.length) :
    heapLE N h (addHeaderStep k v r h).2 ∧ refsLE N (addHeaderStep k v r h).1 ∧
    N ≤ (addHeaderStep k v r h).2.length := by
  obtain ⟨hh1, hh2, hh3⟩ := hr
  cases hdr : r.header with
  | none =>
    have e : addHeaderStep k v r h =
        ({ r with header := some h.length },
          heapSet (h ++ [[]]) h.length (headerAdd (heapGet (h ++ [[]]) h.length) k v)) := by
      simp [addHeaderStep, headerEnsure, hdr, heapAlloc]
    rw [e]
    refine ⟨heapLE_trans (heapLE_alloc h [] hN) (heapLE_set _ _ hN), ⟨hN, hh2, hh3⟩, ?_⟩
    simpa [heapSet] using Nat.le_succ_of_le hN
  | some ref =>
    have hle : N ≤ ref := by
      have h1c := hh1
      rw [hdr] at h1c
      exact h1c
    have e : addHeaderStep k v r h =
        (r, heapSet h ref (headerAdd (heapGet h ref) k v)) := by
      simp [addHeaderStep, headerEnsure, hdr]
    rw [e]
    exact ⟨heapLE_set _ _ hle, ⟨hh1, hh2, hh3⟩, by simpa [heapSet] using hN⟩

theorem delHeaderStep_frame (k : String) (r : Requests) (h : Heap) (N : Nat)
    (hr : refsLE N r) (hN : N ≤ h.length) :
    heapLE N h (delHeaderStep k r h).2 ∧ refsLE N (delHeaderStep k r h).1 ∧
    N ≤ (delHeaderStep k r h).2.length := by
  obtain ⟨hh1, hh2, hh3⟩ := hr
  cases hdr : r.header with
  | none =>
    have e : delHeaderStep k r h = (r, h) := by simp [delHeaderStep, hdr]
    rw [e]
    exact ⟨heapLE_refl N h, ⟨hh1, hh2, hh3⟩, hN⟩
  | some ref =>
    have hle : N ≤ ref := by
      have h1c := hh1
      rw [hdr] at h1c
      exact h1c
    have e : delHeaderStep k r h = (r, heapSet h ref (headerDel (heapGet h ref) k)) := by
      simp [delHeaderStep, hdr]
    rw [e]
    exact ⟨heapLE_set _ _ hle, ⟨hh1, hh2, hh3⟩, by simpa [heapSet] using hN⟩

theorem queryParamsStep_frame (sources : List QuerySource) (r : Requests) (h : Heap) (N : Nat)
    (hr : refsLE N r) (hN : N ≤ h.length) :
    heapLE N h (queryParamsStep sources r h).2.2 ∧
    refsLE N (queryParamsStep sources r h).2.1 ∧
    N ≤ (queryParamsStep sources r h).2.2.length := by
  obtain ⟨hh1, hh2, hh3⟩ := hr
  cases hq : r.queryParams with
  | none =>
    have e : queryParamsStep sources r h =
        ((mergeSources sources (heapGet (h ++ [[]]) h.length)).1,
          { r with queryParams := some h.length },
          heapSet (h ++ [[]]) h.length (mergeSources sources (heapGet (h ++ [[]]) h.length)).2) := by
      simp [queryParamsStep, hq, heapAlloc]
    rw [e]
    refine ⟨heapLE_trans (heapLE_alloc h [] hN) (heapLE_set _ _ hN), ⟨hh1, hh2, hN⟩, ?_⟩
    simpa [heapSet] using Nat.le_succ_of_le hN
  | some ref =>
    have hle : N ≤ ref := by
      have h3c := hh3
      rw [hq] at h3c
      exact h3c
    have e : queryParamsStep sources r h =
        ((mergeSources sources (heapGet h ref)).1, r,
          heapSet h ref (mergeSources sources (heapGet h ref)).2) := by
      simp [queryParamsStep, hq]
    rw [e]
    exact ⟨heapLE_set _ _ hle, ⟨hh1, hh2, hh3⟩, by simpa [heapSet] using hN⟩

theorem relativeURLStep_state (p : String) (r : Requests) (h : Heap) :
    (relativeURLStep p r h).2.2 = h ∧
    (relativeURLStep p r h).2.1.header = r.header ∧
    (relativeURLStep p r h).2.1.trailer = r.trailer ∧
    (relativeURLStep p r h).2.1.queryParams = r.queryParams := by
  cases hp : urlParse p with
  | error e => simp [relativeURLStep, hp]
  | ok u =>
    cases hu : r.url with
    | none => simp [relativeURLStep, hp, hu]
    | some base => simp [relativeURLStep, hp, hu]

theorem relativeURLList_state (ps : List String) : ∀ (r : Requests) (h : Heap),
    (relativeURLList ps r h).2.2 = h ∧
    (relativeURLList ps r h).2.1.header = r.header ∧
    (relativeURLList ps r h).2.1.trailer = r.trailer ∧
    (relativeURLList ps r h).2.1.queryParams = r.queryParams := by
  induction ps with
  | nil => intro r h; simp [relativeURLList]
  | cons p ps ih =>
    intro r h
    rcases hs : relativeURLStep p r h with ⟨e, r1, h1⟩
    have hstate := relativeURLStep_state p r h
    rw [hs] at hstate
    cases e with
    | some e => simpa [relativeURLList, hs] using hstate
    | none =>
      have hi := ih r1 h1
      simp only [relativeURLList, hs]
      exact ⟨hi.1.trans hstate.1, hi.2.1.trans hstate.2.1,
        hi.2.2.1.trans hstate.2.2.1, hi.2.2.2.trans hstate.2.2.2⟩

theorem applyOption_frame (o : OptionV) (r : Requests) (h : Heap) (N : Nat)
    (hr : refsLE N r) (hN : N ≤ h.length) :
    heapLE N h (applyOption o r h).2.2 ∧ refsLE N (applyOption o r h).2.1 ∧
    N ≤ (applyOption o r h).2.2.length := by
  obtain ⟨hh1, hh2, hh3⟩ := hr
  cases o with
  | method m paths =>
    have hstate := relativeURLList_state paths { r with method := m } h
    refine ⟨?_, ⟨?_, ?_, ?_⟩, ?_⟩
    · show heapLE N h (relativeURLList paths { r with method := m } h).2.2
      rw [hstate.1]
      exact heapLE_refl N h
    · show refLE N (relativeURLList paths { r with method := m } h).2.1.header
      rw [hstate.2.1]
      exact hh1
    · show refLE N (relativeURLList paths { r with method := m } h).2.1.trailer
      rw [hstate.2.2.1]
      exact hh2
    · show refLE N (relativeURLList paths { r with method := m } h).2.1.queryParams
      rw [hstate.2.2.2]
      exact hh3
    · show N ≤ (relativeURLList paths { r with method := m } h).2.2.length
      rw [hstate.1]
      exact hN
  | addHeader k v => exact addHeaderStep_frame k v r h N ⟨hh1, hh2, hh3⟩ hN
  | headerOpt k v => exact setHeaderStep_frame k v r h N ⟨hh1, hh2, hh3⟩ hN
  | deleteHeader k => exact delHeaderStep_frame k r h N ⟨hh1, hh2, hh3⟩ hN
  | basicAuth u p => exact setHeaderStep_frame _ _ r h N ⟨hh1, hh2, hh3⟩ hN
  | bearerAuth t =>
    by_cases ht : t = ""
    · have e : applyOption (.bearerAuth t) r h =
          (none, (delHeaderStep "Authorization" r h).1, (delHeaderStep "Authorization" r h).2) := by
        simp [applyOption, ht]
      rw [e]
      exact delHeaderStep_frame _ r h N ⟨hh1, hh2, hh3⟩ hN
    · have e : applyOption (.bearerAuth t) r h =
          (none, (setHeaderStep "Authorization" ("Bearer " ++ t) r h).1,
            (setHeaderStep "Authorization" ("Bearer " ++ t) r h).2) := by
        simp [applyOption, ht]
      rw [e]
      exact setHeaderStep_frame _ _ r h N ⟨hh1, hh2, hh3⟩ hN
  | urlOpt p =>
    cases hp : urlParse p with
    | error e => simp only [applyOption, hp]; exact ⟨heapLE_refl N h, ⟨hh1, hh2, hh3⟩, hN⟩
    | ok u => simp only [applyOption, hp]; exact ⟨heapLE_refl N h, ⟨hh1, hh2, hh3⟩, hN⟩
  | relativeURL p =>
    have hstate := relativeURLStep_state p r h
    refine ⟨?_, ⟨?_, ?_, ?_⟩, ?_⟩
    · show heapLE N h (relativeURLStep p r h).2.2
      rw [hstate.1]
      exact heapLE_refl N h
    · show refLE N (relativeURLStep p r h).2.1.header
      rw [hstate.2.1]
      exact hh1
    · show refLE N (relativeURLStep p r h).2.1.trailer
      rw [hstate.2.2.1]
      exact hh2
    · show refLE N (relativeURLStep p r h).2.1.queryParams
      rw [hstate.2.2.2]
      exact hh3
    · show N ≤ (relativeURLStep p r h).2.2.length
      rw [hstate.1]
      exact hN
  | queryParams sources => exact queryParamsStep_frame sources r h N ⟨hh1, hh2, hh3⟩ hN
  | bodyOpt b => exact ⟨heapLE_refl N h, ⟨hh1, hh2, hh3⟩, hN⟩
  | marshalerOpt m => exact ⟨heapLE_refl N h, ⟨hh1, hh2, hh3⟩, hN⟩
  | unmarshalerOpt m => exact ⟨heapLE_refl N h, ⟨hh1, hh2, hh3⟩, hN⟩
  | accept s => exact setHeaderStep_frame _ _ r h N ⟨hh1, hh2, hh3⟩ hN
  | contentType s => exact setHeaderStep_frame _ _ r h N ⟨hh1, hh2, hh3⟩ hN
  | hostOpt s => exact ⟨heapLE_refl N h, ⟨hh1, hh2, hh3⟩, hN⟩
  | jsonOpt i => exact ⟨heapLE_refl N h, ⟨hh1, hh2, hh3⟩, hN⟩
  | xmlOpt i => exact ⟨heapLE_refl N h, ⟨hh1, hh2, hh3⟩, hN⟩
  | formOpt => exact ⟨heapLE_refl N h, ⟨hh1, hh2, hh3⟩, hN⟩
  | clientOpt c =>
    cases c with
    | error e => exact ⟨heapLE_refl N h, ⟨hh1, hh2, hh3⟩, hN⟩
    | ok d => exact ⟨heapLE_refl N h, ⟨hh1, hh2, hh3⟩, hN⟩
  | useOpt ms => exact ⟨heapLE_refl N h, ⟨hh1, hh2, hh3⟩, hN⟩
  | withDoer d => exact ⟨heapLE_refl N h, ⟨hh1, hh2, hh3⟩, hN⟩

theorem ApplyFn_frame (opts : List OptionV) : ∀ (r : Requests) (h : Heap) (N : Nat),
    refsLE N r → N ≤ h.length →
    heapLE N h (ApplyFn opts r h).2.2 ∧ refsLE N (ApplyFn opts r h).2.1 ∧
    N ≤ (ApplyFn opts r h).2.2.length := by
  induction opts with
  | nil => intro r h N hr hN; exact ⟨heapLE_refl N h, hr, hN⟩
  | cons o os ih =>
    intro r h N hr hN
    rcases ho : applyOption o r h with ⟨e, r1, h1⟩
    have hframe := applyOption_frame o r h N hr hN
    rw [ho] at hframe
    cases e with
    | some e => simpa [ApplyFn, ho] using hframe
    | none =>
      have hi := ih r1 h1 N hframe.2.1 hframe.2.2
      simp only [ApplyFn, ho]
      exact ⟨heapLE_trans hframe.1 hi.1, hi.2.1, hi.2.2⟩

theorem cloneMapRef_frame (h : Heap) (o : Option Ref) (N : Nat) (hN : N ≤ h.length) :
    heapLE N h (cloneMapRef h o).1 ∧ refLE N (cloneMapRef h o).2 ∧
    N ≤ (cloneMapRef h o).1.length := by
  cases o with
  | none => exact ⟨heapLE_refl N h, trivial, hN⟩
  | some ref =>
    refine ⟨heapLE_alloc h _ hN, hN, ?_⟩
    show N ≤ (h ++ [heapGet h ref]).length
    simpa using Nat.le_succ_of_le hN

theorem CloneFn_frame (r : Requests) (h : Heap) (N : Nat) (hN : N ≤ h.length) :
    heapLE N h (CloneFn r h).2 ∧ refsLE N (CloneFn r h).1 ∧
    N ≤ (CloneFn r h).2.length := by
  have c1 := cloneMapRef_frame h r.header N hN
  have c2 := cloneMapRef_frame (cloneMapRef h r.header).1 r.trailer N c1.2.2
  have c3 := cloneMapRef_frame (cloneMapRef (cloneMapRef h r.header).1 r.trailer).1
    r.queryParams N c2.2.2
  refine ⟨heapLE_trans c1.1 (heapLE_trans c2.1 c3.1), ⟨c1.2.1, c2.2.1, c3.2.1⟩, c3.2.2⟩

theorem WithFn_frame (r : Requests) (opts : List OptionV) (h : Heap) :
    heapLE h.length h (WithFn r opts h).2 := by
  have hc := CloneFn_frame r h h.length (Nat.le_refl _)
  have ha := ApplyFn_frame opts (CloneFn r h).1 (CloneFn r h).2 h.length hc.2.1 hc.2.2
  have hle := heapLE_trans hc.1 ha.1
  rcases happ : ApplyFn opts (CloneFn r h).1 (CloneFn r h).2 with ⟨e, r2, h2⟩
  rw [happ] at hle
  cases e with
  | some e => simpa [WithFn, happ] using hle
  | none => simpa [WithFn, happ] using hle

/-! # Lemmas: materialization -/

theorem requestContextCore_frame (r : Requests) (ctx : Nat) (h : Heap) :
    heapLE h.length h (requestContextCore r ctx h).2 := by
  have halloc : heapLE h.length h (h ++ [[]]) := heapLE_alloc h [] (Nat.le_refl _)
  have hset1 : ∀ m : MapObj, heapLE h.length h (heapSet (h ++ [[]]) h.length m) :=
    fun m => heapLE_trans halloc (heapLE_set _ _ (Nat.le_refl _))
  have hset2 : ∀ m m2 : MapObj,
      heapLE h.length h (heapSet (heapSet (h ++ [[]]) h.length m) h.length m2) :=
    fun m m2 => heapLE_trans (hset1 m) (heapLE_set _ _ (Nat.le_refl _))
  rcases hb : getRequestBodyFn r with e | ⟨bodyData, ct⟩
  · simp only [requestContextCore, hb]
    exact heapLE_refl _ h
  · by_cases hm : validMethod (if r.method = "" then "GET" else r.method) = true
    · cases hp : urlParse (match r.url with | none => "" | some u => urlString u) with
      | error e =>
        simp only [requestContextCore, hb, newRequest, hm, if_true, hp]
        exact heapLE_refl _ h
      | ok u =>
        cases hH : r.header with
        | none =>
          by_cases hct : ct = ""
          · simp only [requestContextCore, hb, newRequest, hm, if_true, hp, hH, heapAlloc, hct, ne_eq, not_true_eq_false, ite_false]
            exact halloc
          · simp only [requestContextCore, hb, newRequest, hm, if_true, hp, hH, heapAlloc, hct, ne_eq, not_false_eq_true, ite_true]
            exact hset1 _
        | some ref =>
          by_cases hct : ct = ""
          · simp only [requestContextCore, hb, newRequest, hm, if_true, hp, hH, heapAlloc, hct, ne_eq, not_true_eq_false, ite_false]
            exact hset1 _
          · simp only [requestContextCore, hb, newRequest, hm, if_true, hp, hH, heapAlloc, hct, ne_eq, not_false_eq_true, ite_true]
            exact hset2 _ _
    · have hm2 : validMethod (if r.method = "" then "GET" else r.method) = false :=
        Bool.eq_false_iff.mpr hm
      simp only [requestContextCore, hb, newRequest, hm2, Bool.false_eq_true, if_false]
      exact heapLE_refl _ h

theorem obsMapD_eq_of_heapLE {h h2 : Heap} (a : heapLE h.length h h2) {o : Option Ref}
    (ho : refValidB h o = true) : obsMapD h2 o = obsMapD h o := by
  cases o with
  | none => rfl
  | some ref =>
    have : ref < h.length := by simpa [refValidB] using ho
    simp [obsMapD, a ref this]

/-- requestContextCore computes, on success, exactly the observable
request described by materializeObs applied to the observable map
contents of the configuration. -/
theorem requestContextCore_obs (r : Requests) (ctx : Nat) (h : Heap)
    (hv : validRefsB r h = true) (req : ReqOut)
    (hok : (requestContextCore r ctx h).1 = .ok req) :
    materializeObs r ctx (obsMapD h r.header) (obsMapD h r.queryParams)
      = .ok (reqObs req (requestContextCore r ctx h).2) := by
  obtain ⟨hvH, hvT, hvQ⟩ :
      refValidB h r.header = true ∧ refValidB h r.trailer = true ∧
        refValidB h r.queryParams = true := by
    simpa [validRefsB, Bool.and_eq_true, and_assoc] using hv
  have hlen1 : h.length < (h ++ [[]]).length := by simp
  rcases hb : getRequestBodyFn r with e | ⟨bodyData, ct⟩
  · rw [show (requestContextCore r ctx h).1 = .error e by simp [requestContextCore, hb]] at hok
    cases hok
  · by_cases hm : validMethod (if r.method = "" then "GET" else r.method) = true
    · cases hp : urlParse (match r.url with | none => "" | some u => urlString u) with
      | error e =>
        rw [show (requestContextCore r ctx h).1 = .error e by
          simp [requestContextCore, hb, newRequest, hm, hp]] at hok
        cases hok
      | ok u =>
        cases hH : r.header with
        | none =>
          cases hQ : r.queryParams with
          | none =>
            by_cases hct : ct = ""
            · simp only [requestContextCore, hb, newRequest, hm, if_true, hp, hH, hQ, heapAlloc,
                hct, ne_eq, not_true_eq_false, ite_false, copyEntries, List.foldl_nil] at hok
              injection hok with hreq
              subst hreq
              simp [requestContextCore, hb, newRequest, hm, if_true, hp, hH, hQ, heapAlloc,
                hct, ne_eq, not_true_eq_false, ite_false, materializeObs, reqObs, obsMapD,
                heapGet_append_self, copyEntries, List.foldl_nil,
                heapGet_set_self, heapSet, List.length_set, List.length_append, Nat.lt_succ_self]
            · simp only [requestContextCore, hb, newRequest, hm, if_true, hp, hH, hQ, heapAlloc,
                hct, ne_eq, not_false_eq_true, ite_true, materializeObs, reqObs, obsMapD,
                heapGet_append_self, heapGet_set_self _ _ _ hlen1, copyEntries,
                List.foldl_nil] at hok
              injection hok with hreq
              subst hreq
              simp [requestContextCore, hb, newRequest, hm, if_true, hp, hH, hQ, heapAlloc,
                hct, ne_eq, not_false_eq_true, ite_true, materializeObs, reqObs, obsMapD,
                heapGet_append_self, heapGet_set_self _ _ _ hlen1, copyEntries,
                List.foldl_nil,
                heapGet_set_self, heapSet, List.length_set, List.length_append, Nat.lt_succ_self]
          | some refQ =>
            have hrQ : refQ < h.length := by
              rw [hQ] at hvQ
              simpa [refValidB] using hvQ
            have hneQ : refQ ≠ h.length := Nat.ne_of_lt hrQ
            by_cases hct : ct = ""
            · simp only [requestContextCore, hb, newRequest, hm, if_true, hp, hH, hQ, heapAlloc,
                hct, ne_eq, not_true_eq_false, ite_false, materializeObs, reqObs, obsMapD,
                heapGet_append_self, heapGet_append_lt _ _ _ hrQ, copyEntries,
                List.foldl_nil] at hok
              injection hok with hreq
              subst hreq
              simp [requestContextCore, hb, newRequest, hm, if_true, hp, hH, hQ, heapAlloc,
                hct, ne_eq, not_true_eq_false, ite_false, materializeObs, reqObs, obsMapD,
                heapGet_append_self, heapGet_append_lt _ _ _ hrQ, copyEntries,
                List.foldl_nil,
                heapGet_set_self, heapSet, List.length_set, List.length_append, Nat.lt_succ_self]
            · simp only [requestContextCore, hb, newRequest, hm, if_true, hp, hH, hQ, heapAlloc,
                hct, ne_eq, not_false_eq_true, ite_true, materializeObs, reqObs, obsMapD,
                heapGet_append_self, heapGet_set_self _ _ _ hlen1, heapGet_set_ne _ _ _ _ hneQ,
                heapGet_append_lt _ _ _ hrQ, copyEntries, List.foldl_nil] at hok
              injection hok with hreq
              subst hreq
              simp [requestContextCore, hb, newRequest, hm, if_true, hp, hH, hQ, heapAlloc,
                hct, ne_eq, not_false_eq_true, ite_true, materializeObs, reqObs, obsMapD,
                heapGet_append_self, heapGet_set_self _ _ _ hlen1, heapGet_set_ne _ _ _ _ hneQ,
                heapGet_append_lt _ _ _ hrQ, copyEntries, List.foldl_nil,
                heapGet_set_self, heapSet, List.length_set, List.length_append, Nat.lt_succ_self]
        | some refH =>
          have hrH : refH < h.length := by
            rw [hH] at hvH
            simpa [refValidB] using hvH
          have hneH : refH ≠ h.length := Nat.ne_of_lt hrH
          cases hQ : r.queryParams with
          | none =>
            by_cases hct : ct = ""
            · simp only [requestContextCore, hb, newRequest, hm, if_true, hp, hH, hQ, heapAlloc,
                hct, ne_eq, not_true_eq_false, ite_false, materializeObs, reqObs, obsMapD,
                heapGet_append_self, heapGet_set_self _ _ _ hlen1, heapGet_set_ne _ _ _ _ hneH,
                heapGet_append_lt _ _ _ hrH] at hok
              injection hok with hreq
              subst hreq
              simp [requestContextCore, hb, newRequest, hm, if_true, hp, hH, hQ, heapAlloc,
                hct, ne_eq, not_true_eq_false, ite_false, materializeObs, reqObs, obsMapD,
                heapGet_append_self, heapGet_set_self _ _ _ hlen1, heapGet_set_ne _ _ _ _ hneH,
                heapGet_append_lt _ _ _ hrH,
                heapGet_set_self, heapSet, List.length_set, List.length_append, Nat.lt_succ_self]
            · simp only [requestContextCore, hb, newRequest, hm, if_true, hp, hH, hQ, heapAlloc,
                hct, ne_eq, not_false_eq_true, ite_true, materializeObs, reqObs, obsMapD,
                heapGet_append_self, heapGet_set_self _ _ _ hlen1, heapGet_set_ne _ _ _ _ hneH,
                heapGet_append_lt _ _ _ hrH] at hok
              injection hok with hreq
              subst hreq
              simp [requestContextCore, hb, newRequest, hm, if_true, hp, hH, hQ, heapAlloc,
                hct, ne_eq, not_false_eq_true, ite_true, materializeObs, reqObs, obsMapD,
                heapGet_append_self, heapGet_set_self _ _ _ hlen1, heapGet_set_ne _ _ _ _ hneH,
                heapGet_append_lt _ _ _ hrH,
                heapGet_set_self, heapSet, List.length_set, List.length_append, Nat.lt_succ_self]
          | some refQ =>
            have hrQ : refQ < h.length := by
              rw [hQ] at hvQ
              simpa [refValidB] using hvQ
            have hneQ : refQ ≠ h.length := Nat.ne_of_lt hrQ
            by_cases hct : ct = ""
            · simp only [requestContextCore, hb, newRequest, hm, if_true, hp, hH, hQ, heapAlloc,
                hct, ne_eq, not_true_eq_false, ite_false, materializeObs, reqObs, obsMapD,
                heapGet_append_self, heapGet_set_self _ _ _ hlen1, heapGet_set_ne _ _ _ _ hneH,
                heapGet_set_ne _ _ _ _ hneQ, heapGet_append_lt _ _ _ hrH,
                heapGet_append_lt _ _ _ hrQ] at hok
              injection hok with hreq
              subst hreq
              simp [requestContextCore, hb, newRequest, hm, if_true, hp, hH, hQ, heapAlloc,
                hct, ne_eq, not_true_eq_false, ite_false, materializeObs, reqObs, obsMapD,
                heapGet_append_self, heapGet_set_self _ _ _ hlen1, heapGet_set_ne _ _ _ _ hneH,
                heapGet_set_ne _ _ _ _ hneQ, heapGet_append_lt _ _ _ hrH,
                heapGet_append_lt _ _ _ hrQ,
                heapGet_set_self, heapSet, List.length_set, List.length_append, Nat.lt_succ_self]
            · simp only [requestContextCore, hb, newRequest, hm, if_true, hp, hH, hQ, heapAlloc,
                hct, ne_eq, not_false_eq_true, ite_true, materializeObs, reqObs, obsMapD,
                heapGet_append_self, heapGet_set_self _ _ _ hlen1, heapGet_set_ne _ _ _ _ hneH,
                heapGet_set_ne _ _ _ _ hneQ, heapGet_append_lt _ _ _ hrH,
                heapGet_append_lt _ _ _ hrQ] at hok
              injection hok with hreq
              subst hreq
              simp [requestContextCore, hb, newRequest, hm, if_true, hp, hH, hQ, heapAlloc,
                hct, ne_eq, not_false_eq_true, ite_true, materializeObs, reqObs, obsMapD,
                heapGet_append_self, heapGet_set_self _ _ _ hlen1, heapGet_set_ne _ _ _ _ hneH,
                heapGet_set_ne _ _ _ _ hneQ, heapGet_append_lt _ _ _ hrH,
                heapGet_append_lt _ _ _ hrQ,
                heapGet_set_self, heapSet, List.length_set, List.length_append, Nat.lt_succ_self]
    · have hm2 : validMethod (if r.method = "" then "GET" else r.method) = false :=
        Bool.eq_false_iff.mpr hm
      rw [show (requestContextCore r ctx h).1 =
          .error (.msg ("net/http: invalid method " ++ if r.method = "" then "GET" else r.method)) by
        simp [requestContextCore, hb, newRequest, hm2]] at hok
      cases hok

theorem requestContextCore_len (r : Requests) (ctx : Nat) (h : Heap) :
    h.length ≤ (requestContextCore r ctx h).2.length := by
  rcases hb : getRequestBodyFn r with e | ⟨bodyData, ct⟩
  · simp [requestContextCore, hb]
  · by_cases hm : validMethod (if r.method = "" then "GET" else r.method) = true
    · cases hp : urlParse (match r.url with | none => "" | some u => urlString u) with
      | error e => simp [requestContextCore, hb, newRequest, hm, hp]
      | ok u =>
        cases hH : r.header with
        | none =>
          by_cases hct : ct = "" <;>
            simp [requestContextCore, hb, newRequest, hm, hp, hH, heapAlloc, hct, heapSet,
              Nat.le_succ_of_le]
        | some ref =>
          by_cases hct : ct = "" <;>
            simp [requestContextCore, hb, newRequest, hm, hp, hH, heapAlloc, hct, heapSet,
              Nat.le_succ_of_le]
    · have hm2 : validMethod (if r.method = "" then "GET" else r.method) = false :=
        Bool.eq_false_iff.mpr hm
      simp [requestContextCore, hb, newRequest, hm2]

theorem validRefsB_mono {r : Requests} {h h2 : Heap} (hv : validRefsB r h = true)
    (hlen : h.length ≤ h2.length) : validRefsB r h2 = true := by
  obtain ⟨hvH, hvT, hvQ⟩ :
      refValidB h r.header = true ∧ refValidB h r.trailer = true ∧
        refValidB h r.queryParams = true := by
    simpa [validRefsB, Bool.and_eq_true, and_assoc] using hv
  have step : ∀ o : Option Ref, refValidB h o = true → refValidB h2 o = true := by
    intro o ho
    cases o with
    | none => rfl
    | some ref =>
      simp only [refValidB, decide_eq_true_eq] at ho ⊢
      exact Nat.lt_of_lt_of_le ho hlen
  simp [validRefsB, Bool.and_eq_true, step _ hvH, step _ hvT, step _ hvQ]

/-! # Claim theorems -/

/-- C1: Requests.With clones first and applies its options only to the
clone, so for every Requests r, heap h and option sequence opts, the
observable Header, Trailer and QueryParams map state of r is unchanged
after r.With(opts...) -- whether the application succeeds (the mutated
clone is returned) or some option fails (the error is returned and the
clone is discarded).  r's URL, like every other non-map field, is a plain
value in this embedding, untouched by the explicit state passing; the
heapLE conjunct says no heap cell r can reach is written.  The final
conjunct is the success/failure contract of With. -/
theorem C1_with_clone_isolation (r : Requests) (opts : List OptionV) (h : Heap)
    (hv : validRefsB r h = true) :
    obsHeader r (WithFn r opts h).2 = obsHeader r h ∧
    obsTrailer r (WithFn r opts h).2 = obsTrailer r h ∧
    obsQueryParams r (WithFn r opts h).2 = obsQueryParams r h ∧
    heapLE h.length h (WithFn r opts h).2 ∧
    (match ApplyFn opts (CloneFn r h).1 (CloneFn r h).2 with
     | (none, r2, _) => (WithFn r opts h).1 = .ok r2
     | (some e, _, _) => (WithFn r opts h).1 = .error e) := by
  have hframe := WithFn_frame r opts h
  obtain ⟨hvH, hvT, hvQ⟩ :
      refValidB h r.header = true ∧ refValidB h r.trailer = true ∧
        refValidB h r.queryParams = true := by
    simpa [validRefsB, Bool.and_eq_true, and_assoc] using hv
  refine ⟨obsMap_eq_of_heapLE hframe hvH, obsMap_eq_of_heapLE hframe hvT,
    obsMap_eq_of_heapLE hframe hvQ, hframe, ?_⟩
  rcases happ : ApplyFn opts (CloneFn r h).1 (CloneFn r h).2 with ⟨e, r2, h2⟩
  cases e with
  | none => simp [WithFn, happ]
  | some e => simp [WithFn, happ]

/-- Witness for C1 at a concrete configuration and option list. -/
theorem C1_witness :
    obsHeader wReq (WithFn wReq wOpts1 wHeap).2 = obsHeader wReq wHeap ∧
    obsTrailer wReq (WithFn wReq wOpts1 wHeap).2 = obsTrailer wReq wHeap ∧
    obsQueryParams wReq (WithFn wReq wOpts1 wHeap).2 = obsQueryParams wReq wHeap ∧
    heapLE wHeap.length wHeap (WithFn wReq wOpts1 wHeap).2 ∧
    (match ApplyFn wOpts1 (CloneFn wReq wHeap).1 (CloneFn wReq wHeap).2 with
     | (none, r2, _) => (WithFn wReq wOpts1 wHeap).1 = .ok r2
     | (some e, _, _) => (WithFn wReq wOpts1 wHeap).1 = .error e) :=
  C1_with_clone_isolation wReq wOpts1 wHeap (by decide)

/-- C8: materialization never mutates the configuration: RequestContext
with no extra options leaves every heap cell the Requests can reach
unchanged (so its observable Header, Trailer and QueryParams state is
intact; all other fields are plain values untouched by the state
passing), and a second materialization from the resulting heap produces
an observably equal request. -/
theorem C8_materialization_never_mutates (r : Requests) (ctx : Nat) (h : Heap)
    (hv : validRefsB r h = true) :
    heapLE h.length h (requestContextFn r ctx [] h).2 ∧
    obsHeader r (requestContextFn r ctx [] h).2 = obsHeader r h ∧
    obsTrailer r (requestContextFn r ctx [] h).2 = obsTrailer r h ∧
    obsQueryParams r (requestContextFn r ctx [] h).2 = obsQueryParams r h ∧
    (∀ req1 req2,
      (requestContextFn r ctx [] h).1 = .ok req1 →
      (requestContextFn r ctx [] (requestContextFn r ctx [] h).2).1 = .ok req2 →
      reqObs req1 (requestContextFn r ctx [] h).2 =
        reqObs req2 (requestContextFn r ctx [] (requestContextFn r ctx [] h).2).2) := by
  have e0 : ∀ hx : Heap, requestContextFn r ctx [] hx = requestContextCore r ctx hx :=
    fun hx => rfl
  obtain ⟨hvH, hvT, hvQ⟩ :
      refValidB h r.header = true ∧ refValidB h r.trailer = true ∧
        refValidB h r.queryParams = true := by
    simpa [validRefsB, Bool.and_eq_true, and_assoc] using hv
  have hframe := requestContextCore_frame r ctx h
  have hlen := requestContextCore_len r ctx h
  have hv2 : validRefsB r (requestContextCore r ctx h).2 = true := validRefsB_mono hv hlen
  refine ⟨?_, ?_, ?_, ?_, ?_⟩
  · rw [e0]; exact hframe
  · rw [e0]; exact obsMap_eq_of_heapLE hframe hvH
  · rw [e0]; exact obsMap_eq_of_heapLE hframe hvT
  · rw [e0]; exact obsMap_eq_of_heapLE hframe hvQ
  · intro req1 req2 h1 h2
    rw [e0] at h1 h2
    rw [e0, e0]
    have o1 := requestContextCore_obs r ctx h hv req1 h1
    have o2 := requestContextCore_obs r ctx (requestContextCore r ctx h).2 hv2 req2 h2
    rw [obsMapD_eq_of_heapLE hframe hvH, obsMapD_eq_of_heapLE hframe hvQ] at o2
    rw [o1] at o2
    exact Except.ok.inj o2

/-- Witness for C8 at a concrete configuration. -/
theorem C8_witness :
    heapLE wHeap.length wHeap (requestContextFn wReq 0 [] wHeap).2 ∧
    obsHeader wReq (requestContextFn wReq 0 [] wHeap).2 = obsHeader wReq wHeap ∧
    obsTrailer wReq (requestContextFn wReq 0 [] wHeap).2 = obsTrailer wReq wHeap ∧
    obsQueryParams wReq (requestContextFn wReq 0 [] wHeap).2 = obsQueryParams wReq wHeap := by
  have hthm := C8_materialization_never_mutates wReq 0 wHeap (by decide)
  exact ⟨hthm.1, hthm.2.1, hthm.2.2.1, hthm.2.2.2.1⟩

/-! # Lemmas: option application order -/

theorem ApplyFn_append (opts1 opts2 : List OptionV) : ∀ (r : Requests) (h : Heap),
    ApplyFn (opts1 ++ opts2) r h =
      match ApplyFn opts1 r h with
      | (none, ra, ha) => ApplyFn opts2 ra ha
      | (some ea, ra, ha) => (some ea, ra, ha) := by
  induction opts1 with
  | nil => intro r h; simp [ApplyFn]
  | cons p ps ih =>
    intro r h
    rcases ha : applyOption p r h with ⟨ea, ra, hha⟩
    cases ea with
    | some ea => simp [ApplyFn, ha]
    | none => simp [ApplyFn, ha, ih]

theorem ApplyFn_short_circuit (pre : List OptionV) : ∀ (r : Requests) (h : Heap)
    (o : OptionV) (post : List OptionV) (r1 : Requests) (h1 : Heap) (e : GoErr)
    (r2 : Requests) (h2 : Heap),
    ApplyFn pre r h = (none, r1, h1) →
    applyOption o r1 h1 = (some e, r2, h2) →
    ApplyFn (pre ++ o :: post) r h = (some (.prepend "applying options" e), r2, h2) := by
  induction pre with
  | nil =>
    intro r h o post r1 h1 e r2 h2 hpre hfail
    simp only [ApplyFn, Prod.mk.injEq, true_and] at hpre
    obtain ⟨hr, hh⟩ := hpre
    subst hr
    subst hh
    simp [ApplyFn, hfail]
  | cons p ps ih =>
    intro r h o post r1 h1 e r2 h2 hpre hfail
    rcases ha : applyOption p r h with ⟨ea, ra, hha⟩
    cases ea with
    | some ea =>
      rw [show ApplyFn (p :: ps) r h = (some (.prepend "applying options" ea), ra, hha) by
        simp [ApplyFn, ha]] at hpre
      exact absurd hpre (by simp)
    | none =>
      rw [show ApplyFn (p :: ps) r h = ApplyFn ps ra hha by simp [ApplyFn, ha]] at hpre
      have hstep := ih ra hha o post r1 h1 e r2 h2 hpre hfail
      show ApplyFn (p :: (ps ++ o :: post)) r h = _
      simp [ApplyFn, ha, hstep]

/-- C7: Requests.Apply applies its options strictly in argument order
(the composition conjunct), and the first failing option short-circuits
the rest: the result does not depend on the options after the failure,
and the failing option's error is returned wrapped with the
"applying options" context, with the cause still inspectable. -/
theorem C7_apply_order_and_short_circuit (r : Requests) (h : Heap)
    (pre : List OptionV) (o : OptionV) (post : List OptionV)
    (r1 : Requests) (h1 : Heap) (e : GoErr) (r2 : Requests) (h2 : Heap)
    (hpre : ApplyFn pre r h = (none, r1, h1))
    (hfail : applyOption o r1 h1 = (some e, r2, h2)) :
    ApplyFn (pre ++ o :: post) r h = (some (.prepend "applying options" e), r2, h2) ∧
    (GoErr.prepend "applying options" e).cause = some e ∧
    (∀ (opts1 opts2 : List OptionV) (r0 : Requests) (h0 : Heap),
      ApplyFn (opts1 ++ opts2) r0 h0 =
        match ApplyFn opts1 r0 h0 with
        | (none, ra, ha) => ApplyFn opts2 ra ha
        | (some ea, ra, ha) => (some ea, ra, ha)) :=
  ⟨ApplyFn_short_circuit pre r h o post r1 h1 e r2 h2 hpre hfail, rfl,
    fun opts1 opts2 r0 h0 => ApplyFn_append opts1 opts2 r0 h0⟩

/-- Witness for C7: a bad URL option between two host options. -/
theorem C7_witness :
    ApplyFn (wPre ++ wFailOpt :: wPost) wReq wHeap =
      (some (.prepend "applying options" wErr), wR1, wHeap) ∧
    (GoErr.prepend "applying options" wErr).cause = some wErr := by
  have hthm := C7_apply_order_and_short_circuit wReq wHeap wPre wFailOpt wPost
    wR1 wHeap wErr wR1 wHeap rfl rfl
  exact ⟨hthm.1, hthm.2.1⟩

/-- C9: Requests.Request, Requests.Do and Requests.ReceiveContext drop
their variadic option arguments entirely: each delegates to the
context-taking method without forwarding the options, so the result with
any option list equals the result with none. -/
theorem C9_request_do_receive_discard_options :
    (∀ (r : Requests) (opts : List OptionV) (h : Heap),
      RequestFn r opts h = RequestFn r [] h) ∧
    (∀ (r : Requests) (opts : List OptionV) (dflt : DoerF) (h : Heap),
      DoFn r opts dflt h = DoFn r [] dflt h) ∧
    (∀ (r : Requests) (ctx : Nat) (successV : Option Unit) (opts : List OptionV)
        (dflt : DoerF) (dfltUnm : UnmFn) (h : Heap),
      ReceiveContextFn r ctx successV opts dflt dfltUnm h =
        ReceiveContextFn r ctx successV [] dflt dfltUnm h) :=
  ⟨fun _ _ _ => rfl, fun _ _ _ _ => rfl, fun _ _ _ _ _ _ _ => rfl⟩

/-- C3: ReceiveFullContext routes 2XX responses to the success target and
all others to the failure target; a nil selected target skips decoding
and reports no error; and in every case -- including a decode failure --
the fully read body bytes are returned alongside the response. -/
theorem C3_receive_target_selection (r : Requests) (ctx : Nat) (sv fv : Option Unit)
    (opts : List OptionV) (dflt : DoerF) (dfltUnm : UnmFn) (h : Heap)
    (resp : Response) (h1 : Heap)
    (hdo : DoContextFn r ctx opts dflt h = (.ok resp, h1))
    (hread : resp.readErr = none) :
    ReceiveFullContextFn r ctx sv fv opts dflt dfltUnm h =
      ((some resp, resp.body,
        match selectTarget resp.statusCode sv fv with
        | none => none
        | some _ => (r.unmarshaler.getD dfltUnm) resp.body (headerGet resp.header "Content-Type")),
       h1) ∧
    selectTarget resp.statusCode sv fv =
      (if 200 ≤ resp.statusCode ∧ resp.statusCode ≤ 299 then sv else fv) ∧
    (selectTarget resp.statusCode sv fv = none →
      (ReceiveFullContextFn r ctx sv fv opts dflt dfltUnm h).1.2.2 = none ∧
      ∀ u1 u2 : UnmFn, ReceiveFullContextFn r ctx sv fv opts dflt u1 h =
        ReceiveFullContextFn r ctx sv fv opts dflt u2 h) := by
  refine ⟨?_, rfl, ?_⟩
  · rcases hsel : selectTarget resp.statusCode sv fv with _ | t
    · simp [ReceiveFullContextFn, hdo, hread, hsel]
    · simp [ReceiveFullContextFn, hdo, hread, hsel]
  · intro hsel
    constructor
    · simp [ReceiveFullContextFn, hdo, hread, hsel]
    · intro u1 u2
      simp [ReceiveFullContextFn, hdo, hread, hsel]

/-- Witness for C3: a 206 response with a success target and nil failure
target is routed to the success target. -/
theorem C3_witness :
    ReceiveFullContextFn wReqD 0 (some ()) none [] wDoer wUnm [] =
      ((some wResp, wResp.body,
        match selectTarget wResp.statusCode (some ()) none with
        | none => none
        | some _ => (wReqD.unmarshaler.getD wUnm) wResp.body
            (headerGet wResp.header "Content-Type")),
       [[]]) ∧
    selectTarget wResp.statusCode (some ()) none =
      (if 200 ≤ wResp.statusCode ∧ wResp.statusCode ≤ 299 then some () else none) := by
  have hthm := C3_receive_target_selection wReqD 0 (some ()) none [] wDoer wUnm []
    wResp [[]] (by decide) rfl
  exact ⟨hthm.1, hthm.2.1⟩

/-! # Lemmas: query-parameter merging -/

theorem lookupVals_mapSetEntry (m : MapObj) (k : String) (vs : List String) (k2 : String) :
    lookupVals (mapSetEntry m k vs) k2 = if k = k2 then vs else lookupVals m k2 := by
  induction m with
  | nil => simp [mapSetEntry, lookupVals]
  | cons p ps ih =>
    by_cases h1 : p.1 = k
    · by_cases h2 : k = k2 <;> simp [mapSetEntry, h1, h2, lookupVals]
    · by_cases h2 : k = k2
      · subst h2
        simp [mapSetEntry, h1, lookupVals, ih]
      · by_cases h3 : p.1 = k2
        · have h4 : ¬ k2 = k := fun hc => h2 hc.symm
          simp [mapSetEntry, h1, h2, h3, h4, lookupVals]
        · simp [mapSetEntry, h1, h2, h3, lookupVals, ih]

theorem lookupVals_mapAdd (m : MapObj) (k v : String) (k2 : String) :
    lookupVals (mapAdd m k v) k2 =
      if k = k2 then lookupVals m k2 ++ [v] else lookupVals m k2 := by
  by_cases h : k = k2 <;> simp [mapAdd, lookupVals_mapSetEntry, h]

theorem lookupVals_addAll (vs : List String) : ∀ (m : MapObj) (k k2 : String),
    lookupVals (vs.foldl (fun d v => mapAdd d k v) m) k2 =
      if k = k2 then lookupVals m k2 ++ vs else lookupVals m k2 := by
  induction vs with
  | nil => intro m k k2; by_cases h : k = k2 <;> simp [h]
  | cons v vs ih =>
    intro m k k2
    simp only [List.foldl_cons]
    rw [ih]
    by_cases h : k = k2 <;> simp [h, lookupVals_mapAdd]

theorem entryVals_cons (p : String × List String) (ps : MapObj) (k : String) :
    entryVals (p :: ps) k = (if p.1 = k then p.2 else []) ++ entryVals ps k := by
  by_cases h : p.1 = k <;> simp [entryVals, h]

theorem lookupVals_mergeValues (src : MapObj) : ∀ (dst : MapObj) (k : String),
    lookupVals (mergeValues dst src) k = lookupVals dst k ++ entryVals src k := by
  induction src with
  | nil => intro dst k; simp [mergeValues, entryVals]
  | cons p ps ih =>
    intro dst k
    have e : mergeValues dst (p :: ps) =
        mergeValues (p.2.foldl (fun d v => mapAdd d p.1 v) dst) ps := rfl
    rw [e, ih, lookupVals_addAll, entryVals_cons]
    by_cases h : p.1 = k <;> simp [h]

theorem sourceValues_good (s : QuerySource) (hg : goodSource s = true) :
    sourceValues s = .ok (sourceValuesD s) := by
  cases s <;> simp_all [goodSource, sourceValues, sourceValuesD]

theorem mergeSources_good (ss : List QuerySource) : ss.all goodSource = true →
    ∀ m : MapObj,
    (mergeSources ss m).1 = none ∧
    ∀ k, lookupVals (mergeSources ss m).2 k = lookupVals m k ++ sourcesVals ss k := by
  induction ss with
  | nil => intro _ m; simp [mergeSources, sourcesVals]
  | cons s ss ih =>
    intro hgood m
    obtain ⟨hs, hss⟩ : goodSource s = true ∧ ss.all goodSource = true := by
      simpa [List.all_cons, Bool.and_eq_true] using hgood
    have e : mergeSources (s :: ss) m = mergeSources ss (mergeValues m (sourceValuesD s)) := by
      simp [mergeSources, sourceValues_good s hs]
    rw [e]
    obtain ⟨ih1, ih2⟩ := ih hss (mergeValues m (sourceValuesD s))
    refine ⟨ih1, fun k => ?_⟩
    rw [ih2 k, lookupVals_mergeValues]
    simp [sourcesVals]

/-- C6: every key/value pair of every accepted query-parameter source is
appended to the Requests' queryParams in source order; existing values
for a key are never overwritten, so duplicate keys accumulate all
values. -/
theorem C6_query_params_additive (sources : List QuerySource) (r : Requests) (h : Heap)
    (hv : refValidB h r.queryParams = true)
    (hgood : sources.all goodSource = true) (k : String) :
    (applyOption (.queryParams sources) r h).1 = none ∧
    lookupVals
      (obsMapD (applyOption (.queryParams sources) r h).2.2
        (applyOption (.queryParams sources) r h).2.1.queryParams) k =
      lookupVals (obsMapD h r.queryParams) k ++ sourcesVals sources k := by
  have hmerge := mergeSources_good sources hgood
  cases hq : r.queryParams with
  | none =>
    have hlen : h.length < (h ++ [[]]).length := by simp
    have e : applyOption (.queryParams sources) r h =
        ((mergeSources sources []).1,
          { r with queryParams := some h.length },
          heapSet (h ++ [[]]) h.length (mergeSources sources []).2) := by
      simp [applyOption, queryParamsStep, hq, heapAlloc, heapGet_append_self]
    rw [e]
    obtain ⟨hm1, hm2⟩ := hmerge []
    refine ⟨hm1, ?_⟩
    simp only [obsMapD, hq, heapGet_set_self _ _ _ hlen, hm2 k]
  | some ref =>
    have hr : ref < h.length := by
      rw [hq] at hv
      simpa [refValidB] using hv
    have e : applyOption (.queryParams sources) r h =
        ((mergeSources sources (heapGet h ref)).1, r,
          heapSet h ref (mergeSources sources (heapGet h ref)).2) := by
      simp [applyOption, queryParamsStep, hq]
    rw [e]
    obtain ⟨hm1, hm2⟩ := hmerge (heapGet h ref)
    refine ⟨hm1, ?_⟩
    simp only [obsMapD, hq, heapGet_set_self _ _ _ hr, hm2 k]

/-- Witness for C6: adding limit=30 to a configuration that already has
limit=30 yields limit=[30,30], never an overwrite. -/
theorem C6_witness :
    (applyOption (.queryParams wSources) wReq wHeap).1 = none ∧
    lookupVals
      (obsMapD (applyOption (.queryParams wSources) wReq wHeap).2.2
        (applyOption (.queryParams wSources) wReq wHeap).2.1.queryParams) "limit" =
      ["30", "30"] := by
  have hthm := C6_query_params_additive wSources wReq wHeap (by decide) (by decide) "limit"
  exact ⟨hthm.1, hthm.2.trans (by decide)⟩

/-! # Lemmas: header copying -/

theorem requestContextFn_nil (r : Requests) (ctx : Nat) (h : Heap) :
    requestContextFn r ctx [] h = requestContextCore r ctx h := rfl

theorem hasKey_iff (m : MapObj) (k : String) : hasKey m k = true ↔ k ∈ m.map (·.1) := by
  induction m with
  | nil => simp [hasKey]
  | cons p ps ih =>
    simp only [hasKey, Bool.or_eq_true, decide_eq_true_eq, ih, List.map_cons, List.mem_cons]
    constructor
    · rintro (h | h)
      · exact Or.inl h.symm
      · exact Or.inr h
    · rintro (h | h)
      · exact Or.inl h.symm
      · exact Or.inr h

theorem lookupVals_copyEntries (src : MapObj) : ∀ (dst : MapObj) (k : String),
    (src.map (·.1)).Nodup →
    lookupVals (copyEntries src dst) k =
      if hasKey src k then lookupVals src k else lookupVals dst k := by
  induction src with
  | nil => intro dst k _; simp [copyEntries, hasKey, lookupVals]
  | cons p ps ih =>
    intro dst k hnodup
    obtain ⟨hp, hps⟩ : p.1 ∉ ps.map (·.1) ∧ (ps.map (·.1)).Nodup := by
      simpa [List.nodup_cons] using hnodup
    have e : copyEntries (p :: ps) dst = copyEntries ps (mapSetEntry dst p.1 p.2) := rfl
    rw [e, ih _ k hps]
    by_cases h1 : p.1 = k
    · have hnk : hasKey ps k = false := by
        rw [Bool.eq_false_iff]
        intro hc
        exact hp (h1 ▸ (hasKey_iff ps k).mp hc)
      simp [hasKey, lookupVals, h1, hnk, lookupVals_mapSetEntry]
    · by_cases h2 : hasKey ps k = true
      · simp [hasKey, lookupVals, h1, h2]
      · have h2f : hasKey ps k = false := Bool.eq_false_iff.mpr h2
        simp [hasKey, lookupVals, h1, h2f, lookupVals_mapSetEntry]

/-- C2: getRequestBody resolves the body by fixed precedence (nil, then
io.Reader used directly, then string / byte slice wrapped as readers --
none of these infer a content type -- then anything else through the
configured marshaler, JSON by default); and the marshaler's content type
reaches the materialized request's Content-Type header only when the
caller has not set a Content-Type entry, which always wins. -/
theorem C2_body_precedence_and_content_type :
    (∀ r : Requests, r.body = .bnil → getRequestBodyFn r = .ok (none, "")) ∧
    (∀ (r : Requests) (bs : List Nat), r.body = .reader bs →
      getRequestBodyFn r = .ok (some (.direct bs), "")) ∧
    (∀ (r : Requests) (s : String), r.body = .str s →
      getRequestBodyFn r = .ok (some (.fromStr s), "")) ∧
    (∀ (r : Requests) (b : List Nat), r.body = .bytes b →
      getRequestBodyFn r = .ok (some (.fromBytes b), "")) ∧
    (∀ (r : Requests) (v : StructV), r.body = .structured v →
      getRequestBodyFn r =
        (match (r.marshaler.getD DefaultMarshaler) v with
         | .error e => .error e
         | .ok (b, ct) => .ok (some (.fromBytes b), ct))) ∧
    (∀ (r : Requests) (ctx : Nat) (h : Heap) (v : StructV) (bs : List Nat) (ct : String)
       (req : ReqOut),
      validRefsB r h = true →
      ((obsMapD h r.header).map (·.1)).Nodup →
      r.body = .structured v →
      (r.marshaler.getD DefaultMarshaler) v = .ok (bs, ct) →
      ct ≠ "" →
      (requestContextFn r ctx [] h).1 = .ok req →
      lookupVals (heapGet (requestContextFn r ctx [] h).2 req.header) "Content-Type" =
        (if hasKey (obsMapD h r.header) "Content-Type" then
          lookupVals (obsMapD h r.header) "Content-Type"
         else [ct])) := by
  refine ⟨?_, ?_, ?_, ?_, ?_, ?_⟩
  · intro r hbody; simp [getRequestBodyFn, hbody]
  · intro r bs hbody; simp [getRequestBodyFn, hbody]
  · intro r s hbody; simp [getRequestBodyFn, hbody]
  · intro r b hbody; simp [getRequestBodyFn, hbody]
  · intro r v hbody; simp [getRequestBodyFn, hbody]
  · intro r ctx h v bs ct req hv hnodup hbody hmarshal hct hok
    have hb : getRequestBodyFn r = .ok (some (.fromBytes bs), ct) := by
      simp [getRequestBodyFn, hbody, hmarshal]
    rw [requestContextFn_nil] at hok ⊢
    have o := requestContextCore_obs r ctx h hv req hok
    by_cases hm : validMethod (if r.method = "" then "GET" else r.method) = true
    · cases hp : urlParse (match r.url with | none => "" | some u => urlString u) with
      | error e =>
        rw [show materializeObs r ctx (obsMapD h r.header) (obsMapD h r.queryParams) = .error e by
          simp [materializeObs, hb, hm, hp]] at o
        exact absurd o (by simp)
      | ok u =>
        simp only [materializeObs, hb, hm, if_true, hp, hct, ne_eq, not_false_eq_true,
          ite_true] at o
        injection o with o2
        have hc := congrArg ObsReq.headerC o2
        simp only [reqObs] at hc
        rw [← hc, lookupVals_copyEntries _ _ _ hnodup]
        have hcanon : CanonicalMIMEHeaderKey "Content-Type" = "Content-Type" := by decide
        by_cases hk : hasKey (obsMapD h r.header) "Content-Type" = true
        · simp [hk]
        · have hkf := Bool.eq_false_iff.mpr hk
          simp [hkf, headerSet, hcanon, lookupVals_mapSetEntry]
    · have hm2 : validMethod (if r.method = "" then "GET" else r.method) = false :=
        Bool.eq_false_iff.mpr hm
      rw [show materializeObs r ctx (obsMapD h r.header) (obsMapD h r.queryParams) =
          .error (.msg ("net/http: invalid method " ++ if r.method = "" then "GET" else r.method)) by
        simp [materializeObs, hb, hm2]] at o
      exact absurd o (by simp)

/-- Witness for C2: wReq has no caller Content-Type, so the JSON
marshaler's content type appears on the materialized request. -/
theorem C2_witness :
    lookupVals (heapGet (requestContextFn wReq 0 [] wHeap).2 wMatReq.header) "Content-Type" =
      ["application/json"] := by
  have hres := C2_body_precedence_and_content_type.2.2.2.2.2 wReq 0 wHeap
    [("text", .fs "note"), ("favorite_count", .fn 12)] wBodyBytes "application/json" wMatReq
    (by decide) (by decide) rfl (by decide) (by decide) (by decide)
  exact hres.trans (by decide)

/-- C4: when the configuration's URL already carries a raw query string
and queryParams is non-empty, the materialized request keeps the original
query string and appends the encoded parameters after a single ampersand;
scheme, host and path are untouched.  The round-trip hypothesis pins the
URL to the class on which the net/url model is exact. -/
theorem C4_existing_query_preserved (r : Requests) (ctx : Nat) (h : Heap) (u : URLV)
    (qref : Ref) (req : ReqOut)
    (hv : validRefsB r h = true)
    (hurl : r.url = some u)
    (hrt : urlParse (urlString u) = .ok u)
    (hq : r.queryParams = some qref)
    (hqne : heapGet h qref ≠ [])
    (hrq : u.rawQuery ≠ "")
    (hok : (requestContextFn r ctx [] h).1 = .ok req) :
    req.url.rawQuery = u.rawQuery ++ "&" ++ valuesEncode (heapGet h qref) ∧
    req.url.scheme = u.scheme ∧ req.url.host = u.host ∧ req.url.path = u.path := by
  rw [requestContextFn_nil] at hok
  have o := requestContextCore_obs r ctx h hv req hok
  rcases hb : getRequestBodyFn r with e | ⟨bodyData, ct⟩
  · rw [show materializeObs r ctx (obsMapD h r.header) (obsMapD h r.queryParams) = .error e by
      simp [materializeObs, hb]] at o
    exact absurd o (by simp)
  · by_cases hm : validMethod (if r.method = "" then "GET" else r.method) = true
    · have hlen : 0 < (heapGet h qref).length := List.length_pos.mpr hqne
      simp only [materializeObs, hb, hm, if_true, hurl, hrt, obsMapD, hq, gt_iff_lt, hlen,
        ite_true, hrq, ne_eq, not_false_eq_true] at o
      injection o with o2
      have hcu := congrArg ObsReq.url o2
      simp only [reqObs] at hcu
      rw [← hcu]
      exact ⟨rfl, rfl, rfl, rfl⟩
    · have hm2 : validMethod (if r.method = "" then "GET" else r.method) = false :=
        Bool.eq_false_iff.mpr hm
      rw [show materializeObs r ctx (obsMapD h r.header) (obsMapD h r.queryParams) =
          .error (.msg ("net/http: invalid method " ++ if r.method = "" then "GET" else r.method)) by
        simp [materializeObs, hb, hm2]] at o
      exact absurd o (by simp)

/-- Witness for C4: color=red is preserved and limit=30 appended. -/
theorem C4_witness :
    wMatReq.url.rawQuery = wURL.rawQuery ++ "&" ++ valuesEncode (heapGet wHeap 1) ∧
    wMatReq.url.scheme = wURL.scheme ∧ wMatReq.url.host = wURL.host ∧
    wMatReq.url.path = wURL.path :=
  C4_existing_query_preserved wReq 0 wHeap wURL 1 wMatReq (by decide) rfl (by decide) rfl
    (by decide) (by decide) (by decide)

/-- C10: the package-level DoContext and ReceiveFullContext construct a
Requests with New(opts...) and then call the method with the same opts, so
every option is applied twice; for additive options the effect on the
request about to be sent is duplicated, shown here for AddHeader (the
value appears twice) and QueryParams (the parameter appears twice) on the
effective Requests the method materializes and sends. -/
theorem C10_package_functions_double_apply :
    (∀ (ctx : Nat) (opts : List OptionV) (dflt : DoerF) (h : Heap),
      pkgDoContextFn ctx opts dflt h =
        (match NewFn opts h with
         | (.error e, h1) => (.error e, h1)
         | (.ok r, h1) => DoContextFn r ctx opts dflt h1)) ∧
    (∀ (ctx : Nat) (sv fv : Option Unit) (opts : List OptionV) (dflt : DoerF)
        (dfltUnm : UnmFn) (h : Heap),
      pkgReceiveFullContextFn ctx sv fv opts dflt dfltUnm h =
        (match NewFn opts h with
         | (.error e, h1) => ((none, [], some e), h1)
         | (.ok r, h1) => ReceiveFullContextFn r ctx sv fv opts dflt dfltUnm h1)) ∧
    (∀ k v : String, CanonicalMIMEHeaderKey k = k →
      ∃ r1 h1 r2 h2,
        NewFn [.addHeader k v] [] = (.ok r1, h1) ∧
        effectiveReqs r1 [.addHeader k v] h1 = (.ok r2, h2) ∧
        lookupVals (obsMapD h2 r2.header) k = [v, v]) ∧
    (∀ k v : String,
      ∃ r1 h1 r2 h2,
        NewFn [.queryParams [.qvalues [(k, [v])]]] [] = (.ok r1, h1) ∧
        effectiveReqs r1 [.queryParams [.qvalues [(k, [v])]]] h1 = (.ok r2, h2) ∧
        lookupVals (obsMapD h2 r2.queryParams) k = [v, v]) := by
  refine ⟨fun _ _ _ _ => rfl, fun _ _ _ _ _ _ _ => rfl, ?_, ?_⟩
  · intro k v hk
    refine ⟨{ emptyRequests with header := some 0 }, [[(k, [v])]],
      { emptyRequests with header := some 1 }, [[(k, [v])], [(k, [v, v])]], ?_, ?_, ?_⟩
    · simp [NewFn, ApplyFn, applyOption, addHeaderStep, headerEnsure, heapAlloc, heapSet,
        heapGet, headerAdd, mapAdd, hk, lookupVals, mapSetEntry, emptyRequests]
    · simp [effectiveReqs, WithFn, CloneFn, cloneMapRef, ApplyFn, applyOption, addHeaderStep,
        headerEnsure, heapAlloc, heapSet, heapGet, headerAdd, mapAdd, hk, lookupVals,
        mapSetEntry, emptyRequests]
    · simp [obsMapD, heapGet, lookupVals]
  · intro k v
    refine ⟨{ emptyRequests with queryParams := some 0 }, [[(k, [v])]],
      { emptyRequests with queryParams := some 1 }, [[(k, [v])], [(k, [v, v])]], ?_, ?_, ?_⟩
    · simp [NewFn, ApplyFn, applyOption, queryParamsStep, heapAlloc, heapSet, heapGet,
        mergeSources, sourceValues, mergeValues, mapAdd, lookupVals, mapSetEntry,
        emptyRequests]
    · simp [effectiveReqs, WithFn, CloneFn, cloneMapRef, ApplyFn, applyOption, queryParamsStep,
        heapAlloc, heapSet, heapGet, mergeSources, sourceValues, mergeValues, mapAdd,
        lookupVals, mapSetEntry, emptyRequests]
    · simp [obsMapD, heapGet, lookupVals]

/-- Witness for C10 at a concrete header key/value. -/
theorem C10_witness :
    ∃ r1 h1 r2 h2,
      NewFn [.addHeader "X-Key" "1"] [] = (.ok r1, h1) ∧
      effectiveReqs r1 [.addHeader "X-Key" "1"] h1 = (.ok r2, h2) ∧
      lookupVals (obsMapD h2 r2.header) "X-Key" = ["1", "1"] :=
  C10_package_functions_double_apply.2.2.1 "X-Key" "1" (by decide)

/-! # Lemmas: URL reference resolution (for C5) -/

/-- C5 counterexample: the claim fails as stated.  The base
"http://a.io/" ends in a slash and ".." is a relative path without a
leading slash, yet RelativeURL ".." yields "http://a.io/" (dot segments
are resolved away), not the concatenation "http://a.io/..". -/
theorem C5_counterexample :
    urlParse "http://a.io/" = .ok wBase ∧
    (applyOption (.relativeURL "..") { emptyRequests with url := some wBase } []).1 = none ∧
    ((applyOption (.relativeURL "..") { emptyRequests with url := some wBase } []).2.1.url.map
        urlString) = some "http://a.io/" ∧
    "http://a.io/" ≠ "http://a.io/" ++ ".." := by
  refine ⟨by decide, ?_, ?_, by decide⟩
  · simp [applyOption, relativeURLStep, show urlParse ".." = .ok { URLV.empty with path := ".." }
      by decide]
  · simp [applyOption, relativeURLStep, show urlParse ".." = .ok { URLV.empty with path := ".." }
      by decide]
    decide

theorem cutList_not_mem (c : Char) (l : List Char) (h : c ∉ l) : cutList c l = (l, none) := by
  induction l with
  | nil => rfl
  | cons x xs ih =>
    simp only [List.mem_cons, not_or] at h
    have hx : ¬ x = c := fun hc => h.1 hc.symm
    simp [cutList, hx, ih h.2]

theorem getSchemeCore_no_colon (l : List Char) : ∀ first : Bool, ':' ∉ l →
    getSchemeCore first l = .ok none := by
  induction l with
  | nil => intro first _; rfl
  | cons c cs ih =>
    intro first h
    simp only [List.mem_cons, not_or] at h
    have hc : ¬ c = ':' := fun hcc => h.1 hcc.symm
    by_cases ha : c.isAlpha
    · simp [getSchemeCore, ha, ih false h.2, Except.map]
    · by_cases hd : c.isDigit ∨ c = '+' ∨ c = '-' ∨ c = '.'
      · cases first <;> simp [getSchemeCore, ha, hd, ih false h.2, Except.map]
      · simp [getSchemeCore, ha, hd, hc]

theorem splitSlash_ne_nil (l : List Char) : splitSlash l ≠ [] := by
  cases l with
  | nil => simp [splitSlash]
  | cons c cs =>
    by_cases h : c = '/'
    · simp [splitSlash, h]
    · simp only [splitSlash, h, if_false]
      cases hs : splitSlash cs with
      | nil => simp
      | cons s r => simp

theorem joinSlash_nil_cons (s : List Char) (r : List (List Char)) :
    joinSlash ([] :: s :: r) = '/' :: joinSlash (s :: r) := by
  simp [joinSlash, List.intersperse]

theorem joinSlash_head_cons (c : Char) (s : List Char) (r : List (List Char)) :
    joinSlash ((c :: s) :: r) = c :: joinSlash (s :: r) := by
  cases r <;> simp [joinSlash, List.intersperse]

theorem joinSlash_splitSlash (l : List Char) : joinSlash (splitSlash l) = l := by
  induction l with
  | nil => rfl
  | cons c cs ih =>
    cases hs : splitSlash cs with
    | nil => exact absurd hs (splitSlash_ne_nil cs)
    | cons s r =>
      by_cases h : c = '/'
      · subst h
        have e : splitSlash ('/' :: cs) = [] :: s :: r := by simp [splitSlash, hs]
        rw [e, joinSlash_nil_cons, ← hs, ih]
      · have e : splitSlash (c :: cs) = (c :: s) :: r := by simp [splitSlash, h, hs]
        rw [e, joinSlash_head_cons, ← hs, ih]

theorem foldl_resolveStep_clean (segs : List (List Char))
    (h : ∀ s ∈ segs, ¬ s = ['.'] ∧ ¬ s = ['.', '.']) :
    ∀ acc, segs.foldl resolveStep acc = acc ++ segs := by
  induction segs with
  | nil => intro acc; simp
  | cons s ss ih =>
    intro acc
    have hs := h s (by simp)
    have hss : ∀ x ∈ ss, ¬ x = ['.'] ∧ ¬ x = ['.', '.'] := fun x hx => h x (by simp [hx])
    simp only [List.foldl_cons, resolveStep, hs.1, hs.2, if_false, ite_false]
    rw [ih hss]
    simp

theorem upToLastSlash_of_getLast (l : List Char) (h : l.getLast? = some '/') :
    upToLastSlash l = l := by
  induction l with
  | nil => cases h
  | cons c cs ih =>
    cases hcs : cs with
    | nil =>
      subst hcs
      have hc : c = '/' := by simpa using h
      subst hc
      simp [upToLastSlash]
    | cons d ds =>
      have hlast : cs.getLast? = some '/' := by
        subst hcs
        simpa [List.getLast?_cons_cons] using h
      have hmem : '/' ∈ cs := List.mem_of_mem_getLast? (by rw [hlast]; rfl)
      subst hcs
      simp [upToLastSlash, hmem]
      exact ih hlast

theorem upToLastSlash_starts (l : List Char) (h : listStartsWith l ['/'] = true) :
    listStartsWith (upToLastSlash l) ['/'] = true ∧ upToLastSlash l ≠ [] := by
  cases l with
  | nil => cases h
  | cons c cs =>
    have hc : c = '/' := by
      have h2 := h
      simp [listStartsWith, List.isPrefixOf] at h2
      exact h2.symm
    subst hc
    by_cases hm : '/' ∈ cs
    · simp [upToLastSlash, hm, listStartsWith, List.isPrefixOf]
    · simp [upToLastSlash, hm, listStartsWith, List.isPrefixOf]

theorem segmentsOK_clean (full : List Char) (hseg : segmentsOK full = true) :
    ∀ s ∈ splitSlash full, ¬ s = ['.'] ∧ ¬ s = ['.', '.'] := by
  intro s hs
  have h1 := List.all_eq_true.mp hseg s hs
  simp only [Bool.and_eq_true, bne_iff_ne, ne_eq, decide_eq_true_eq] at h1
  simpa using h1

theorem resolvePath_process (full : List Char)
    (h1 : listStartsWith full ['/'] = true)
    (hseg : segmentsOK full = true) :
    resolvePath full [] = full := by
  have hne : full ≠ [] := by
    intro he
    subst he
    cases h1
  have hclean := segmentsOK_clean full hseg
  have hlast : ¬ ((splitSlash full).getLast? = some ['.'] ∨
      (splitSlash full).getLast? = some ['.', '.']) := by
    rintro (hl | hl)
    · exact (hclean _ (List.mem_of_mem_getLast? (by rw [hl]; rfl))).1 rfl
    · exact (hclean _ (List.mem_of_mem_getLast? (by rw [hl]; rfl))).2 rfl
  have hfold := foldl_resolveStep_clean (splitSlash full) hclean []
  obtain ⟨c, cs, rfl⟩ : ∃ c cs, full = c :: cs := by
    cases full with
    | nil => exact absurd rfl hne
    | cons c cs => exact ⟨c, cs, rfl⟩
  have hc : c = '/' := by
    have h2 := h1
    simp [listStartsWith, List.isPrefixOf] at h2
    exact h2.symm
  subst hc
  have key : resolvePath ('/' :: cs) [] =
      '/' :: trimOneLeadingSlash (joinSlash ((splitSlash ('/' :: cs)).foldl resolveStep [])) := by
    simp [resolvePath, if_neg hlast]
  rw [key, hfold, List.nil_append, joinSlash_splitSlash]
  simp [trimOneLeadingSlash]

theorem resolvePath_concat (base ref : List Char)
    (hb : listStartsWith base ['/'] = true)
    (hr : listStartsWith ref ['/'] = false)
    (hseg : segmentsOK (upToLastSlash base ++ ref) = true)
    (hcase : ref ≠ [] ∨ base.getLast? = some '/') :
    resolvePath base ref = upToLastSlash base ++ ref := by
  by_cases href : ref = []
  · have hend : base.getLast? = some '/' := by
      rcases hcase with hcl | hcr
      · exact absurd href hcl
      · exact hcr
    have heq : upToLastSlash base = base := upToLastSlash_of_getLast base hend
    subst href
    rw [heq] at hseg ⊢
    rw [List.append_nil] at hseg ⊢
    exact resolvePath_process base hb hseg
  · have hstarts := upToLastSlash_starts base hb
    have hfull_starts : listStartsWith (upToLastSlash base ++ ref) ['/'] = true := by
      obtain ⟨c, cs, he⟩ : ∃ c cs, upToLastSlash base = c :: cs := by
        cases hup : upToLastSlash base with
        | nil => exact absurd hup hstarts.2
        | cons c cs => exact ⟨c, cs, rfl⟩
      have hc : c = '/' := by
        have h2 := hstarts.1
        rw [he] at h2
        simp [listStartsWith, List.isPrefixOf] at h2
        exact h2.symm
      subst hc
      rw [he]
      simp [listStartsWith, List.isPrefixOf]
    have e : resolvePath base ref = resolvePath (upToLastSlash base ++ ref) [] := by
      have hrn : ¬ listStartsWith ref ['/'] = true := by simp [hr]
      simp only [resolvePath, href, ite_false, if_neg href, hrn, if_pos rfl]
      simp
    rw [e]
    exact resolvePath_process _ hfull_starts hseg

theorem urlParse_clean_relative (P : String)
    (hPc : P.toList.all cleanSegChar = true)
    (hPs : strHasLeadingSlash P = false) :
    urlParse P = .ok { URLV.empty with path := P } := by
  have hchars := List.all_eq_true.mp hPc
  have hnot : ∀ c : Char, cleanSegChar c = false → c ∉ P.toList := by
    intro c hcf hm
    rw [hchars c hm] at hcf
    cases hcf
  have h35 : '#' ∉ P.toList := hnot '#' (by decide)
  have h63 : '?' ∉ P.toList := hnot '?' (by decide)
  have h58 : ':' ∉ P.toList := hnot ':' (by decide)
  have hstar : P.toList ≠ ['*'] := by
    intro he
    exact hnot '*' (by decide) (he ▸ (by simp))
  have hnoslash : ∀ tail : List Char, P.toList ≠ '/' :: tail := by
    intro tail he
    rw [show P.toList = P.data from rfl] at he
    simp [strHasLeadingSlash, show P.toList = P.data from rfl, he] at hPs
  have hpre1 : listStartsWith P.toList ['/'] = false := by
    cases hp : P.toList with
    | nil => rfl
    | cons c cs =>
      have hc : ¬ c = '/' := by
        intro hcc
        exact hnoslash cs (by rw [hp, hcc])
      simp [listStartsWith, List.isPrefixOf]
      intro hcc
      exact absurd hcc.symm hc
  have hpre2 : listStartsWith P.toList ['/', '/'] = false := by
    cases hp : P.toList with
    | nil => rfl
    | cons c cs =>
      have hc : ¬ c = '/' := by
        intro hcc
        exact hnoslash cs (by rw [hp, hcc])
      simp [listStartsWith, List.isPrefixOf]
      intro hcc
      exact absurd hcc.symm hc
  have hqlast : ¬ (P.toList ≠ [] ∧ P.toList.getLast? = some '?' ∧
      P.toList.dropLast.all (· ≠ '?') = true) := by
    rintro ⟨-, hl, -⟩
    exact h63 (List.mem_of_mem_getLast? (by rw [hl]; rfl))
  have hcolon : hasColonBeforeSlash P.toList = false := by
    have hfind : List.findIdx? (fun x => decide (x = ':')) P.data = none := by
      rw [List.findIdx?_eq_none_iff]
      intro x hx
      by_cases he : x = ':'
      · exact absurd (he ▸ hx) h58
      · simp [he]
    simp [hasColonBeforeSlash, hfind]
  have hcut35 := cutList_not_mem '#' P.toList h35
  have hcut63 := cutList_not_mem '?' P.toList h63
  have hscheme := getSchemeCore_no_colon P.toList true h58
  have hdata : (⟨P.toList⟩ : String) = P := rfl
  simp only [urlParse, hcut35, urlParseCore, hstar, hscheme, hqlast, hcut63,
    hpre1, hpre2, hcolon, ite_false, if_neg hstar, bind, Except.bind, hdata]
  simp [hstar, hqlast, hpre1, hpre2, hcolon, hdata, URLV.empty, listToLower, pure, Except.pure]

theorem resolveReference_clean (u : URLV) (P : String)
    (hq : u.rawQuery = "") (hf : u.fragment = "") :
    resolveReference u { URLV.empty with path := P } =
      { scheme := u.scheme, opq := "", host := u.host,
        path := ⟨resolvePath u.path.toList P.toList⟩,
        forceQuery := false, rawQuery := "", fragment := "" } := by
  by_cases hp : P = ""
  · subst hp
    simp [resolveReference, URLV.empty, hq, hf]
  · simp [resolveReference, URLV.empty, hp, hq, hf]

theorem urlString_clean (v : URLV) (hs : v.scheme ≠ "") (hopq : v.opq = "")
    (hh : v.host ≠ "") (hq : v.rawQuery = "") (hf : v.fragment = "")
    (hfq : v.forceQuery = false)
    (hpath : strHasLeadingSlash v.path = true) :
    (urlString v).data = v.scheme.data ++ [':', '/', '/'] ++ v.host.data ++ v.path.data := by
  have hcond : (v.scheme ≠ "" ∨ v.host ≠ "") ∧ (v.host ≠ "" ∨ v.path ≠ "") := by
    exact ⟨Or.inl hs, Or.inl hh⟩
  have hns : ¬ (v.path ≠ "" ∧ strHasLeadingSlash v.path = false ∧ v.host ≠ "") := by
    rintro ⟨-, hfalse, -⟩
    rw [hpath] at hfalse
    cases hfalse
  simp [urlString, hs, hopq, hh, hq, hf, hfq, hcond, hns, hpath, String.data_append]

theorem strHasLeadingSlash_eq (s : String) :
    strHasLeadingSlash s = listStartsWith s.toList ['/'] := by
  rw [strHasLeadingSlash]
  split
  · next x heq => rw [heq]; simp [listStartsWith, List.isPrefixOf]
  · next hne =>
    cases hl : s.toList with
    | nil => rfl
    | cons c cs =>
      have hc : ¬ c = '/' := by
        intro he
        exact hne cs (by rw [hl, he])
      simp [listStartsWith, List.isPrefixOf, hc, Ne.symm hc]

theorem listStartsWith_slash_append (l r : List Char)
    (h : listStartsWith l ['/'] = true) :
    listStartsWith (l ++ r) ['/'] = true := by
  cases l with
  | nil => exact Bool.noConfusion h
  | cons c cs =>
    have h2 := h
    simp [listStartsWith, List.isPrefixOf] at h2
    subst h2
    simp [listStartsWith, List.isPrefixOf]

/-- C5 (amended).  The claim as stated is false: C5_counterexample
shows RelativeURL ".." against "http://a.io/" resolves dot segments
instead of concatenating.  Amended to the clean fragment forced by
net/url's reference resolution: the base URL has a non-empty scheme and
host, no user info/query/fragment, and an absolute path; the relative
path P consists of unreserved characters and interior slashes, has no
leading slash, and the joined path upToLastSlash(base)+P contains no "."
or ".." segment.  On that fragment the spec's three sentences hold:
(iii) with no URL configured, RelativeURL adopts the parsed reference;
(ii) in general the base path's last segment is replaced by P (the
resolved URL renders as scheme://host + upToLastSlash(path) + P); and
(i) when the base path ends in '/', the result is exactly the
concatenation urlString(base) + P. -/
theorem C5_relative_url_resolution
    (r : Requests) (h : Heap) (u : URLV) (P : String)
    (hs : u.scheme ≠ "") (hopq : u.opq = "") (hh : u.host ≠ "")
    (hq : u.rawQuery = "") (hf : u.fragment = "") (hfq : u.forceQuery = false)
    (hbase : strHasLeadingSlash u.path = true)
    (hclean : P.toList.all cleanSegChar = true)
    (hnoslash : strHasLeadingSlash P = false)
    (hseg : segmentsOK (upToLastSlash u.path.toList ++ P.toList) = true)
    (hcase : P ≠ "" ∨ u.path.toList.getLast? = some '/') :
    (∀ (q : String) (v : URLV), r.url = none → urlParse q = .ok v →
        applyOption (.relativeURL q) r h = (none, { r with url := some v }, h)) ∧
    (r.url = some u →
      ∃ res : URLV,
        applyOption (.relativeURL P) r h = (none, { r with url := some res }, h) ∧
        (urlString res).data =
          u.scheme.data ++ [':', '/', '/'] ++ u.host.data ++
            (upToLastSlash u.path.toList ++ P.toList) ∧
        (u.path.toList.getLast? = some '/' →
          (urlString res).data = (urlString u).data ++ P.toList)) := by
  constructor
  · intro q v hnone hparse
    simp [applyOption, relativeURLStep, hparse, hnone]
  · intro hurl
    have hbl : listStartsWith u.path.toList ['/'] = true := by
      rw [← strHasLeadingSlash_eq]; exact hbase
    have hpl : listStartsWith P.toList ['/'] = false := by
      rw [← strHasLeadingSlash_eq]; exact hnoslash
    have hcase2 : P.toList ≠ [] ∨ u.path.toList.getLast? = some '/' := by
      rcases hcase with hc | hc
      · exact Or.inl (fun he => hc (String.ext he))
      · exact Or.inr hc
    have hres : resolvePath u.path.toList P.toList =
        upToLastSlash u.path.toList ++ P.toList :=
      resolvePath_concat _ _ hbl hpl hseg hcase2
    have hrespath : strHasLeadingSlash
        (⟨upToLastSlash u.path.toList ++ P.toList⟩ : String) = true := by
      rw [strHasLeadingSlash_eq]
      exact listStartsWith_slash_append _ _ (upToLastSlash_starts u.path.toList hbl).1
    have hres2 : resolvePath u.path.data P.data = upToLastSlash u.path.data ++ P.data := hres
    have hurlstr : (urlString { scheme := u.scheme, opq := "", host := u.host,
                                path := (⟨upToLastSlash u.path.toList ++ P.toList⟩ : String),
                                forceQuery := false, rawQuery := "",
                                fragment := "" }).data =
        u.scheme.data ++ [':', '/', '/'] ++ u.host.data ++
          (upToLastSlash u.path.toList ++ P.toList) :=
      urlString_clean { scheme := u.scheme, opq := "", host := u.host,
                        path := (⟨upToLastSlash u.path.toList ++ P.toList⟩ : String),
                        forceQuery := false, rawQuery := "", fragment := "" }
        hs rfl hh rfl rfl rfl hrespath
    refine ⟨{ scheme := u.scheme, opq := "", host := u.host,
              path := ⟨upToLastSlash u.path.toList ++ P.toList⟩,
              forceQuery := false, rawQuery := "", fragment := "" }, ?_, ?_, ?_⟩
    · simp [applyOption, relativeURLStep, urlParse_clean_relative P hclean hnoslash, hurl,
        resolveReference_clean u P hq hf, hres2]
    · exact hurlstr
    · intro hlastd
      rw [hurlstr, upToLastSlash_of_getLast _ hlastd,
        urlString_clean u hs hopq hh hq hf hfq hbase]
      simp [String.toList, List.append_assoc]

/-- Witness for C5 (amended): base "http://a.io/", relative path "foo";
RelativeURL "foo" succeeds and the resolved URL is the concatenation
"http://a.io/" + "foo" = "http://a.io/foo". -/
theorem C5_witness :
    applyOption (.relativeURL "foo") { emptyRequests with url := some wBase } [] =
      (none, { emptyRequests with url := some { scheme := "http", opq := "", host := "a.io",
                                                path := "/foo", forceQuery := false,
                                                rawQuery := "", fragment := "" } }, []) ∧
    (urlString { scheme := "http", opq := "", host := "a.io", path := "/foo",
                 forceQuery := false, rawQuery := "", fragment := "" } : String).data =
      (urlString wBase).data ++ "foo".toList := by
  have hcalc : applyOption (.relativeURL "foo") { emptyRequests with url := some wBase } [] =
      (none, { emptyRequests with url := some { scheme := "http", opq := "", host := "a.io",
                                                path := "/foo", forceQuery := false,
                                                rawQuery := "", fragment := "" } }, []) := by
    rfl
  obtain ⟨-, h2⟩ := C5_relative_url_resolution
    { emptyRequests with url := some wBase } [] wBase "foo"
    (by decide) rfl (by decide) rfl rfl rfl (by decide) (by decide) (by decide) (by decide)
    (Or.inl (by decide))
  obtain ⟨res, ha, -, hc⟩ := h2 rfl
  have h5 := hcalc.symm.trans ha
  have h6 : some ({ scheme := "http", opq := "", host := "a.io", path := "/foo",
                    forceQuery := false, rawQuery := "", fragment := "" } : URLV) = some res :=
    congrArg (fun t => t.2.1.url) h5
  have h7 := Option.some.inj h6
  refine ⟨hcalc, ?_⟩
  rw [h7]
  exact hc (by decide)

end Sling
